import Mathlib

/-!
# Round-trip verifier of `_examples/sarama/main.go`

A shallow embedding of the example program: `setup` (broker start, topic
creation), the produce loop that fills the expectation index `pmap`, and the
per-partition verify loop.  Everything outside the file (broker, client
library, Go runtime choices) is an explicit input collected in `World`.

Conventions of the embedding:
* `int32` / `int64` / `int16` values are `Int`; the program only compares and
  stores them.  The counters `i`, `checked`, `totalChecked` are `Nat`: they are
  bounded by the message count, so the `int` of Go never wraps.
* The run is observed through a list of events (calls with an outside effect)
  and the way the process ends.
-/

namespace Sarama

/-- The record `check` of the program: what the producer was told for one send. -/
structure check where
  partition : Int
  offset : Int
  message : String
deriving DecidableEq, Repr

/-- The constant `topic`. -/
def topic : String := "test_topic"

/-- The constant `messageCount`. -/
def messageCount : Nat := 15

/-- The constant `numPartitions`. -/
def numPartitions : Int := 8

/-- The value `fmt.Sprintf("Hello from Jocko #%d!", i)` for a non-negative `i`. -/
def message (i : Nat) : String := "Hello from Jocko #" ++ Nat.repr i ++ "!"

/-- A Go `map[int32][]check`: the keys present (in insertion order, which Go does
not expose) and the slice stored under each key.  A key that is absent reads as
the nil slice. -/
structure PMap where
  keys : List Int
  vals : Int → List check

/-- The value `make(map[int32][]check)`. -/
def PMap.empty : PMap := ⟨[], fun _ => []⟩

/-- The read `pmap[k]`: the stored slice, or nil for an absent key. -/
def PMap.get (m : PMap) (k : Int) : List check :=
  if k ∈ m.keys then m.vals k else []

/-- The assignment `pmap[k] = v`. -/
def PMap.set (m : PMap) (k : Int) (v : List check) : PMap :=
  ⟨if k ∈ m.keys then m.keys else m.keys ++ [k], Function.update m.vals k v⟩

/-- A `sarama.ConsumerMessage`, reduced to the fields the program reads. -/
structure ConsumerMessage where
  partition : Int
  offset : Int
  value : String
deriving DecidableEq, Repr

/-- What one receive on the channel `partition.Messages()` does: it yields a
message, finds the channel closed (the `range` loop ends), or never returns. -/
inductive Recv where
  | msg (m : ConsumerMessage)
  | closed
  | blocked
deriving DecidableEq, Repr

/-- One entry of `resp.TopicErrorCodes`. -/
structure TopicErrorCode where
  Topic : String
  ErrorCode : Int
deriving DecidableEq, Repr

/-- The two constants of package `protocol` that `setup` compares against,
`protocol.ErrNone.Code()` and `protocol.ErrTopicAlreadyExists.Code()`.  The
package is not part of the file under study, so they are parameters. -/
structure ProtocolCodes where
  ErrNone : Int
  ErrTopicAlreadyExists : Int

/-- Everything the program receives from outside. -/
structure World where
  /-- The error of `c.Start(ctx)`, if any. -/
  startErr : Option String
  /-- The error of `jocko.Dial`, if any. -/
  dialErr : Option String
  /-- The result of `conn.CreateTopics`: an error or the response. -/
  createTopics : Except String (List TopicErrorCode)
  /-- The error of `sarama.NewSyncProducer`, if any. -/
  newSyncProducerErr : Option String
  /-- The result `(partition, offset, err)` of the `i`-th call of
  `producer.SendMessage`, given the value sent. -/
  sendMessage : Nat → String → Except String (Int × Int)
  /-- The error of `producer.Close()`, if any. -/
  producerCloseErr : Option String
  /-- The order in which `for partitionID := range pmap` visits the keys. -/
  rangeOrder : List Int → List Int
  /-- The error of `sarama.NewConsumer` for the visit of a partition, if any. -/
  newConsumerErr : Int → Option String
  /-- The error of `consumer.ConsumePartition(topic, p, 0)`, if any. -/
  consumePartitionErr : Int → Option String
  /-- The `k`-th receive on the stream of partition `p` opened at offset 0. -/
  messages : Int → Nat → Recv
  /-- The error of `consumer.Close()` for a partition, if any. -/
  consumerCloseErr : Int → Option String

/-- The value carried by a Go panic of this program. -/
inductive PanicValue where
  | err (e : String)
  | indexOutOfRange
deriving DecidableEq, Repr

/-- The ways a piece of the program stops the whole run. -/
inductive Abort where
  /-- A `panic(...)`: deferred calls run, then the process dies. -/
  | panicked (v : PanicValue)
  /-- The call `os.Exit(code)` (also reached through `logrus ... Fatal`):
  the process ends at once and deferred calls do not run. -/
  | osExit (code : Nat)
  /-- A receive that never returns. -/
  | blockedForever
deriving DecidableEq, Repr

/-- The calls with an effect outside the process. -/
inductive Event where
  | sendMessage (i : Nat) (value : String)
  | producerClose
  | recv (partitionID : Int) (k : Nat)
  | consumerClose (partitionID : Int)
  | fatal (text : String)
  | printf (totalChecked : Nat)
  | shutdown
  | removeAll
deriving DecidableEq, Repr

/-- The events of a piece of the program and how it ended. -/
structure Res (α : Type) where
  events : List Event
  out : Except Abort α

/-- Put events in front of a result. -/
def Res.after {α : Type} (es : List Event) (r : Res α) : Res α :=
  ⟨es ++ r.events, r.out⟩

/-- The loop over `resp.TopicErrorCodes` in `setup`: `os.Exit(1)` at the first
code that is neither of the two accepted ones. -/
def checkTopicErrorCodes (c : ProtocolCodes) : List TopicErrorCode → Except Nat Unit
  | [] => .ok ()
  | topicErrCode :: rest =>
    if topicErrCode.ErrorCode ≠ c.ErrNone ∧ topicErrCode.ErrorCode ≠ c.ErrTopicAlreadyExists then
      .error 1
    else checkTopicErrorCodes c rest

/-- The function `setup`: `.error code` is `os.Exit(code)`, `.ok ()` is the
return of the server and the clean-up closure. -/
def setup (c : ProtocolCodes) (w : World) : Except Nat Unit :=
  match w.startErr with
  | some _ => .error 1
  | none =>
    match w.dialErr with
    | some _ => .error 1
    | none =>
      match w.createTopics with
      | .error _ => .error 1
      | .ok resp => checkTopicErrorCodes c resp

/-- The closure returned by `setup`: `c.Shutdown()` then `os.RemoveAll(logDir)`. -/
def clean : List Event := [.shutdown, .removeAll]

/-- The produce loop `for i := 0; i < messageCount; i++`, with `n` iterations
left to run from index `i`. -/
def produceLoop (w : World) : (n : Nat) → (i : Nat) → PMap → Res PMap
  | 0, _, pmap => ⟨[], .ok pmap⟩
  | n + 1, i, pmap =>
    match w.sendMessage i (message i) with
    | .error e => ⟨[.sendMessage i (message i)], .error (.panicked (.err e))⟩
    | .ok (partition, offset) =>
      (produceLoop w n (i + 1)
        (pmap.set partition (pmap.get partition ++ [⟨partition, offset, message i⟩]))).after
        [.sendMessage i (message i)]

/-- The loop `for msg := range partition.Messages()` for one partition, from the
`k`-th receive on, with the loop variables `i`, `checked` and the running
`totalChecked`.  It returns the new `totalChecked`. -/
def verifyLoop (w : World) (pmap : PMap) (partitionID : Int)
    (k i checked totalChecked : Nat) : Res Nat :=
  match w.messages partitionID k with
  | .closed => ⟨[], .ok totalChecked⟩
  | .blocked => ⟨[], .error .blockedForever⟩
  | .msg msg =>
    if h : i < (pmap.get partitionID).length then
      let check := (pmap.get partitionID)[i]
      if msg.value ≠ check.message then
        ⟨[.recv partitionID k, .fatal "msg values not equal"], .error (.osExit 1)⟩
      else if msg.offset ≠ check.offset then
        ⟨[.recv partitionID k, .fatal "msg offsets not equal"], .error (.osExit 1)⟩
      else if i + 1 = (pmap.get partitionID).length then
        match w.consumerCloseErr partitionID with
        | some e =>
          ⟨[.recv partitionID k, .consumerClose partitionID], .error (.panicked (.err e))⟩
        | none =>
          ⟨[.recv partitionID k, .consumerClose partitionID], .ok (totalChecked + (checked + 1))⟩
      else
        (verifyLoop w pmap partitionID (k + 1) (i + 1) (checked + 1) totalChecked).after
          [.recv partitionID k]
    else ⟨[.recv partitionID k], .error (.panicked .indexOutOfRange)⟩
termination_by (pmap.get partitionID).length - i
decreasing_by omega

/-- The loop `for partitionID := range pmap` over the keys in the order given. -/
def verifyPartitions (w : World) (pmap : PMap) : List Int → Nat → Res Nat
  | [], totalChecked => ⟨[], .ok totalChecked⟩
  | partitionID :: rest, totalChecked =>
    match w.newConsumerErr partitionID with
    | some e => ⟨[], .error (.panicked (.err e))⟩
    | none =>
      match w.consumePartitionErr partitionID with
      | some e => ⟨[], .error (.panicked (.err e))⟩
      | none =>
        match verifyLoop w pmap partitionID 0 0 0 totalChecked with
        | ⟨es, .error a⟩ => ⟨es, .error a⟩
        | ⟨es, .ok total⟩ => (verifyPartitions w pmap rest total).after es

/-- The body of `main` after `defer clean()`, for a message count `N`. -/
def body (N : Nat) (w : World) : Res Unit :=
  match w.newSyncProducerErr with
  | some e => ⟨[], .error (.panicked (.err e))⟩
  | none =>
    match produceLoop w N 0 PMap.empty with
    | ⟨es, .error a⟩ => ⟨es, .error a⟩
    | ⟨es, .ok pmap⟩ =>
      match w.producerCloseErr with
      | some e => ⟨es ++ [.producerClose], .error (.panicked (.err e))⟩
      | none =>
        match verifyPartitions w pmap (w.rangeOrder pmap.keys) 0 with
        | ⟨es2, .error a⟩ => ⟨es ++ [.producerClose] ++ es2, .error a⟩
        | ⟨es2, .ok totalChecked⟩ =>
          ⟨es ++ [.producerClose] ++ es2 ++ [.printf totalChecked], .ok ()⟩

/-- How the process ends. -/
inductive Exit where
  /-- The function `main` returned: exit status 0. -/
  | returned
  /-- An unrecovered panic: exit status 2. -/
  | panicked (v : PanicValue)
  /-- The call `os.Exit(code)`. -/
  | osExit (code : Nat)
  /-- The process never ends. -/
  | blockedForever
deriving DecidableEq, Repr

/-- A whole run: its events and its end. -/
structure Run where
  events : List Event
  exit : Exit

/-- The function `main` with the constant `messageCount` replaced by `N` (any
value a Go `int` holds).  The deferred `clean()` runs when `main` returns and when
it panics; it does not run after `os.Exit`, nor while the process is blocked. -/
def mainN (c : ProtocolCodes) (N : Nat) (w : World) : Run :=
  match setup c w with
  | .error code => ⟨[], .osExit code⟩
  | .ok () =>
    match body N w with
    | ⟨es, .ok ()⟩ => ⟨es ++ clean, .returned⟩
    | ⟨es, .error (.panicked v)⟩ => ⟨es ++ clean, .panicked v⟩
    | ⟨es, .error (.osExit code)⟩ => ⟨es, .osExit code⟩
    | ⟨es, .error .blockedForever⟩ => ⟨es, .blockedForever⟩

/-- The function `main` of the program. -/
def main (c : ProtocolCodes) (w : World) : Run := mainN c messageCount w

/-- The exit status of the process, when it ends. -/
def Exit.status : Exit → Option Nat
  | .returned => some 0
  | .panicked _ => some 2
  | .osExit code => some code
  | .blockedForever => none

/-- The counts printed by the success line during a run. -/
def printed (es : List Event) : List Nat :=
  es.filterMap (fun e => match e with | .printf n => some n | _ => none)

/-- The number of messages received from the stream of partition `p`. -/
def reads (p : Int) (es : List Event) : Nat :=
  (es.filter (fun e => match e with | .recv q _ => decide (q = p) | _ => false)).length

/-- The number of calls of `producer.SendMessage`. -/
def sends (es : List Event) : Nat :=
  (es.filter (fun e => match e with | .sendMessage _ _ => true | _ => false)).length

/-- The number of times the clean-up closure ran (its first call, `c.Shutdown()`). -/
def teardowns (es : List Event) : Nat := es.count .shutdown

/-- The index a produce loop leaves behind (empty when the loop panicked). -/
def indexOf (w : World) (N : Nat) : PMap :=
  match (produceLoop w N 0 PMap.empty).out with
  | .ok pmap => pmap
  | .error _ => PMap.empty

/-- A world in which every call succeeds and partitions are assigned round-robin
over the eight partitions; nothing is ever delivered to a consumer. -/
def silentWorld : World where
  startErr := none
  dialErr := none
  createTopics := .ok [⟨topic, 0⟩]
  newSyncProducerErr := none
  sendMessage := fun i _ => .ok ((i : Int) % 8, (i : Int) / 8)
  producerCloseErr := none
  rangeOrder := List.reverse
  newConsumerErr := fun _ => none
  consumePartitionErr := fun _ => none
  messages := fun _ _ => .blocked
  consumerCloseErr := fun _ => none

/-- The stream of a broker that delivers on each partition what was produced to
it, in order, and then has nothing more to deliver. -/
def echo (pmap : PMap) (p : Int) (k : Nat) : Recv :=
  match (pmap.get p)[k]? with
  | some c => .msg ⟨c.partition, c.offset, c.message⟩
  | none => .blocked

/-- The world of a correct broker: `silentWorld` whose streams deliver what the
fifteen sends of the program produced. -/
def goodWorld : World :=
  { silentWorld with messages := echo (indexOf silentWorld messageCount) }

/-- The Kafka values of the two codes: 0 and 36. -/
def kafkaCodes : ProtocolCodes := ⟨0, 36⟩

/-! ## Auxiliary definitions used to state and prove the properties -/

/-- The record appended for send `i` when the producer answered `r`. -/
def recordOf (res : Nat → Int × Int) (i : Nat) : check :=
  ⟨(res i).1, (res i).2, message i⟩

/-- The events a verify loop on partition `p` can emit. -/
def VerifyEvent (p : Int) (e : Event) : Prop :=
  (∃ k, e = .recv p k) ∨ e = .consumerClose p ∨ ∃ t, e = .fatal t

/-- The slice lengths of the partitions visited, added up. -/
def expected (pmap : PMap) (order : List Int) : Nat :=
  (order.map (fun q => (pmap.get q).length)).sum

/-- Read a decimal numeral back: the left inverse of `Nat.toDigits 10`. -/
def decodeStep (a : Nat) (ch : Char) : Nat := 10 * a + (ch.toNat - 48)

/-- The send results seen by a produce loop, with a filler where a send failed. -/
def resultsOf (w : World) (i : Nat) : Int × Int :=
  match w.sendMessage i (message i) with
  | .ok r => r
  | .error _ => (0, 0)

/-- The events before the verifier starts. -/
def ProduceEvent (x : Event) : Prop := (∃ j v, x = .sendMessage j v) ∨ x = .producerClose

/-- The streams `s`, closed on each partition after the slice recorded for it. -/
def closedBeyond (pmap : PMap) (s : Int → Nat → Recv) (p : Int) (k : Nat) : Recv :=
  if k < (pmap.get p).length then s p k else .closed

/-- All fifteen sends land on partition 3, whose stream is closed before it
delivers anything. -/
def closedWorld : World :=
  { silentWorld with
    sendMessage := fun i _ => .ok (3, (i : Int))
    messages := fun _ _ => .closed }

/-- A correct produce phase, after which every stream delivers messages whose
payload was altered. -/
def corruptWorld : World :=
  { silentWorld with messages := fun p k => .msg ⟨p, (k : Int), "corrupted"⟩ }

/-- The correct broker of `goodWorld`, except that the first message delivered on
partition 1 carries an altered payload; as in `goodWorld`, every stream waits
once it has delivered what was produced. -/
def oneCorruptWorld : World :=
  { goodWorld with
    messages := fun p k =>
      if p = 1 ∧ k = 0 then .msg ⟨1, 0, "corrupted"⟩ else goodWorld.messages p k }

/-- The correct broker of `goodWorld`, except that the stream of partition 0 is
closed after its first message. -/
def shortWorld : World :=
  { goodWorld with
    messages := fun p k => if p = 0 ∧ k = 1 then .closed else goodWorld.messages p k }

/-- Keys are visited in insertion order; the stream of partition 0 never
delivers, the stream of partition 1 delivers an altered payload. -/
def stalledWorld : World :=
  { silentWorld with
    rangeOrder := id
    messages := fun p k => if p = 1 then .msg ⟨p, (k : Int), "corrupted"⟩ else .blocked }

/-! ## The map -/

theorem PMap.get_set (m : PMap) (k k2 : Int) (v : List check) :
    (m.set k v).get k2 = if k2 = k then v else m.get k2 := by
  unfold PMap.get PMap.set
  by_cases h : k2 = k
  · subst h
    by_cases hk : k2 ∈ m.keys <;> simp [hk]
  · by_cases hk : k ∈ m.keys <;> simp [hk, h, Function.update_noteq h]

theorem PMap.mem_keys_set (m : PMap) (k k2 : Int) (v : List check) :
    k2 ∈ (m.set k v).keys ↔ k2 ∈ m.keys ∨ k2 = k := by
  unfold PMap.set
  by_cases hk : k ∈ m.keys
  · simp only [hk, if_true]
    constructor
    · exact fun h => Or.inl h
    · rintro (h | h)
      · exact h
      · exact h ▸ hk
  · simp [hk]

theorem PMap.nodup_keys_set (m : PMap) (k : Int) (v : List check) (h : m.keys.Nodup) :
    (m.set k v).keys.Nodup := by
  unfold PMap.set
  by_cases hk : k ∈ m.keys
  · simpa [hk] using h
  · simp only [hk, if_false]
    exact List.Nodup.append h (List.nodup_singleton k) (by simpa using hk)

theorem PMap.get_empty (p : Int) : PMap.empty.get p = [] := by
  simp [PMap.get, PMap.empty]

/-! ## The produce loop -/

/-- When every send from `i` on succeeds, the loop finishes, emits one send per
index, and extends each slice by the records of the sends assigned to it. -/
theorem produceLoop_ok (w : World) (res : Nat → Int × Int) :
    ∀ (n i : Nat) (pmap : PMap),
      (∀ j, i ≤ j → j < i + n → w.sendMessage j (message j) = .ok (res j)) →
      ∃ pm, produceLoop w n i pmap =
          ⟨(List.range' i n).map (fun j => Event.sendMessage j (message j)), .ok pm⟩ ∧
        (∀ p, pm.get p = pmap.get p ++
          ((List.range' i n).filter (fun j => decide ((res j).1 = p))).map (recordOf res)) ∧
        (∀ p, p ∈ pm.keys ↔ p ∈ pmap.keys ∨ ∃ j, i ≤ j ∧ j < i + n ∧ (res j).1 = p) ∧
        (pmap.keys.Nodup → pm.keys.Nodup) := by
  intro n
  induction n with
  | zero =>
    intro i pmap _
    refine ⟨pmap, by simp [produceLoop], by simp, ?_, id⟩
    intro p
    constructor
    · exact fun h => Or.inl h
    · rintro (h | ⟨j, h1, h2, _⟩)
      · exact h
      · omega
  | succ n ih =>
    intro i pmap h
    have h0 := h i (le_refl i) (by omega)
    obtain ⟨pm, hpm, hget, hkeys, hnd⟩ := ih (i + 1)
      (pmap.set (res i).1 (pmap.get (res i).1 ++ [⟨(res i).1, (res i).2, message i⟩]))
      (fun j h1 h2 => h j (by omega) (by omega))
    refine ⟨pm, ?_, ?_, ?_, ?_⟩
    · simp only [produceLoop, h0, hpm, Res.after, List.range'_succ, List.map_cons,
        List.singleton_append]
    · intro p
      rw [hget p, PMap.get_set, List.range'_succ, List.filter_cons]
      by_cases hp : p = (res i).1
      · subst hp
        simp [recordOf]
      · have hp2 : ¬ (res i).1 = p := fun e => hp e.symm
        simp [hp, hp2]
    · intro p
      rw [hkeys p, PMap.mem_keys_set]
      constructor
      · rintro ((h1 | h1) | ⟨j, h1, h2, h3⟩)
        · exact Or.inl h1
        · exact Or.inr ⟨i, le_refl i, by omega, h1.symm⟩
        · exact Or.inr ⟨j, by omega, by omega, h3⟩
      · rintro (h1 | ⟨j, h1, h2, h3⟩)
        · exact Or.inl (Or.inl h1)
        · by_cases hj : j = i
          · subst hj
            exact Or.inl (Or.inr h3.symm)
          · exact Or.inr ⟨j, by omega, by omega, h3⟩
    · intro hn
      exact hnd (PMap.nodup_keys_set _ _ _ hn)

/-- A produce loop that finishes saw only successful sends. -/
theorem produceLoop_sends_ok (w : World) :
    ∀ (n i : Nat) (pmap pm : PMap), (produceLoop w n i pmap).out = .ok pm →
      ∀ j, i ≤ j → j < i + n → ∃ r, w.sendMessage j (message j) = .ok r := by
  intro n
  induction n with
  | zero => intro i pmap pm _ j h1 h2; omega
  | succ n ih =>
    intro i pmap pm h j h1 h2
    unfold produceLoop at h
    cases hs : w.sendMessage i (message i) with
    | error e => rw [hs] at h; simp at h
    | ok r =>
      obtain ⟨partition, offset⟩ := r
      rw [hs] at h
      by_cases hj : j = i
      · subst hj; exact ⟨_, hs⟩
      · exact ih (i + 1) _ pm (by simpa [Res.after] using h) j (by omega) (by omega)

/-- The events of the produce loop are sends only, at most one per iteration. -/
theorem produceLoop_events (w : World) :
    ∀ (n i : Nat) (pmap : PMap),
      ∀ e ∈ (produceLoop w n i pmap).events, ∃ j v, e = Event.sendMessage j v := by
  intro n
  induction n with
  | zero => intro i pmap e he; simp [produceLoop] at he
  | succ n ih =>
    intro i pmap e he
    unfold produceLoop at he
    cases hs : w.sendMessage i (message i) with
    | error err =>
      rw [hs] at he
      simp at he
      exact ⟨_, _, he⟩
    | ok r =>
      obtain ⟨partition, offset⟩ := r
      rw [hs] at he
      simp only [Res.after, List.singleton_append, List.mem_cons] at he
      rcases he with he | he
      · exact ⟨_, _, he⟩
      · exact ih _ _ e he

/-! ## The verify loop of one partition -/

theorem verifyLoop_events (w : World) (pmap : PMap) (p : Int) :
    ∀ (n k i checked total : Nat), (pmap.get p).length - i = n →
      ∀ e ∈ (verifyLoop w pmap p k i checked total).events, VerifyEvent p e := by
  intro n
  induction n with
  | zero =>
    intro k i checked total hn e he
    rw [verifyLoop] at he
    have hlt : ¬ i < (pmap.get p).length := by omega
    cases hm : w.messages p k with
    | closed => simp [hm] at he
    | blocked => simp [hm] at he
    | msg m =>
      simp only [hm, hlt, dite_false, List.mem_singleton] at he
      exact Or.inl ⟨k, he⟩
  | succ n ih =>
    intro k i checked total hn e he
    rw [verifyLoop] at he
    have hlt : i < (pmap.get p).length := by omega
    cases hm : w.messages p k with
    | closed => simp [hm] at he
    | blocked => simp [hm] at he
    | msg m =>
      simp only [hm, hlt, dite_true] at he
      split_ifs at he with h1 h2 h3
      · simp at he
        rcases he with he | he
        · exact Or.inl ⟨k, he⟩
        · exact Or.inr (Or.inr ⟨_, he⟩)
      · simp at he
        rcases he with he | he
        · exact Or.inl ⟨k, he⟩
        · exact Or.inr (Or.inr ⟨_, he⟩)
      · cases hc : w.consumerCloseErr p with
        | some err =>
          simp [hc] at he
          rcases he with he | he
          · exact Or.inl ⟨k, he⟩
          · exact Or.inr (Or.inl he)
        | none =>
          simp [hc] at he
          rcases he with he | he
          · exact Or.inl ⟨k, he⟩
          · exact Or.inr (Or.inl he)
      · simp only [Res.after, List.singleton_append, List.mem_cons] at he
        rcases he with he | he
        · exact Or.inl ⟨k, he⟩
        · exact ih (k + 1) (i + 1) (checked + 1) total (by omega) e he

theorem reads_append (p : Int) (a b : List Event) :
    reads p (a ++ b) = reads p a + reads p b := by
  simp [reads, List.filter_append]

theorem reads_recv_cons (p : Int) (k : Nat) (es : List Event) :
    reads p (Event.recv p k :: es) = reads p es + 1 := by
  simp [reads]

/-- Started inside the slice, the loop never indexes out of range, and it
receives at most as many messages as are left to check. -/
theorem verifyLoop_bounds (w : World) (pmap : PMap) (p : Int) :
    ∀ (n k i checked total : Nat), (pmap.get p).length - i = n → i < (pmap.get p).length →
      (verifyLoop w pmap p k i checked total).out ≠ .error (.panicked .indexOutOfRange) ∧
      reads p (verifyLoop w pmap p k i checked total).events ≤ n := by
  intro n
  induction n with
  | zero => intro k i checked total hn hlt; omega
  | succ n ih =>
    intro k i checked total hn hlt
    rw [verifyLoop]
    cases hm : w.messages p k with
    | closed => simp [reads]
    | blocked => simp [reads]
    | msg m =>
      simp only [hlt, dite_true]
      split_ifs with h1 h2 h3
      · simp [reads]
      · simp [reads]
      · cases hc : w.consumerCloseErr p <;> simp [reads]
      · have h := ih (k + 1) (i + 1) (checked + 1) total (by omega) (by omega)
        refine ⟨h.1, ?_⟩
        simp only [Res.after, List.singleton_append, reads_recv_cons]
        omega

/-- The loop looks only at the receives that are left to check: two worlds that
agree on them (and on the close error) run the same loop. -/
theorem verifyLoop_congr (w w2 : World) (pmap : PMap) (p : Int)
    (hclose : w2.consumerCloseErr p = w.consumerCloseErr p) :
    ∀ (n k i checked total : Nat), (pmap.get p).length - i = n → i < (pmap.get p).length →
      (∀ j, j < n → w2.messages p (k + j) = w.messages p (k + j)) →
      verifyLoop w2 pmap p k i checked total = verifyLoop w pmap p k i checked total := by
  intro n
  induction n with
  | zero => intro k i checked total hn hlt; omega
  | succ n ih =>
    intro k i checked total hn hlt hag
    have h0 : w2.messages p k = w.messages p k := by simpa using hag 0 (by omega)
    rw [verifyLoop, verifyLoop.eq_1 w, h0, hclose]
    cases hm : w.messages p k with
    | closed => rfl
    | blocked => rfl
    | msg m =>
      simp only [hlt, dite_true]
      split_ifs with h1 h2 h3
      · rfl
      · rfl
      · rfl
      · rw [ih (k + 1) (i + 1) (checked + 1) total (by omega) (by omega)
          (fun j hj => by have := hag (j + 1) (by omega); rwa [show k + (j + 1) = k + 1 + j by omega] at this)]

/-- When the stream delivers, in order, what is left of the slice and the close
succeeds, the loop ends normally and adds the whole slice to the total. -/
theorem verifyLoop_match (w : World) (pmap : PMap) (p : Int)
    (hclose : w.consumerCloseErr p = none) :
    ∀ (n k i checked total : Nat), (pmap.get p).length - i = n → i < (pmap.get p).length →
      (∀ j, j < n → ∃ m c, w.messages p (k + j) = .msg m ∧ (pmap.get p)[i + j]? = some c ∧
        m.value = c.message ∧ m.offset = c.offset) →
      (verifyLoop w pmap p k i checked total).out = .ok (total + (checked + n)) := by
  intro n
  induction n with
  | zero => intro k i checked total hn hlt; omega
  | succ n ih =>
    intro k i checked total hn hlt hs
    obtain ⟨m, c, hm, hc, hv, ho⟩ := hs 0 (by omega)
    simp only [Nat.add_zero] at hm hc
    have hci : (pmap.get p)[i] = c := by
      rw [List.getElem?_eq_getElem hlt] at hc
      exact Option.some.inj hc
    rw [verifyLoop, hm]
    simp only [hlt, dite_true, hci, hv, ho, ne_eq, not_true_eq_false, if_false]
    split_ifs with h3
    · have hn1 : n = 0 := by omega
      simp [hclose, hn1]
    · have h := ih (k + 1) (i + 1) (checked + 1) total (by omega) (by omega)
        (fun j hj => by
          obtain ⟨m2, c2, h1, h2, h3, h4⟩ := hs (j + 1) (by omega)
          refine ⟨m2, c2, ?_, ?_, h3, h4⟩
          · rwa [show k + 1 + j = k + (j + 1) by omega]
          · rwa [show i + 1 + j = i + (j + 1) by omega])
      simp only [Res.after, h]
      congr 1
      omega

/-- A loop that ends normally although the stream was not closed early has read
and checked everything that was left, and added it to the total. -/
theorem verifyLoop_full (w : World) (pmap : PMap) (p : Int) :
    ∀ (n k i checked total t : Nat), (pmap.get p).length - i = n → i < (pmap.get p).length →
      (∀ j, j < n → w.messages p (k + j) ≠ .closed) →
      (verifyLoop w pmap p k i checked total).out = .ok t →
      t = total + (checked + n) ∧ reads p (verifyLoop w pmap p k i checked total).events = n := by
  intro n
  induction n with
  | zero => intro k i checked total t hn hlt; omega
  | succ n ih =>
    intro k i checked total t hn hlt hs
    have h0 := hs 0 (by omega)
    simp only [Nat.add_zero] at h0
    rw [verifyLoop]
    cases hm : w.messages p k with
    | closed => exact absurd hm h0
    | blocked => simp
    | msg m =>
      simp only [hlt, dite_true]
      split_ifs with h1 h2 h3
      · simp
      · simp
      · have hn1 : n = 0 := by omega
        cases hc : w.consumerCloseErr p with
        | some err => simp
        | none =>
          simp only [Except.ok.injEq, reads_recv_cons, hn1]
          intro ht
          refine ⟨ht.symm, ?_⟩
          simp [reads]
      · intro ht
        have h := ih (k + 1) (i + 1) (checked + 1) total t (by omega) (by omega)
          (fun j hj => by
            have := hs (j + 1) (by omega)
            rwa [show k + 1 + j = k + (j + 1) by omega])
          (by simpa [Res.after] using ht)
        refine ⟨by omega, ?_⟩
        simp only [Res.after, List.singleton_append, reads_recv_cons]
        omega

/-- A mismatch `d` messages ahead on a stream that delivers up to there stops the
run with `os.Exit(1)` after at most `d + 1` receives. -/
theorem verifyLoop_mismatch (w : World) (pmap : PMap) (p : Int) (c : check)
    (m : ConsumerMessage) (hne : m.value ≠ c.message ∨ m.offset ≠ c.offset) :
    ∀ (d k i checked total : Nat),
      (∀ j, j ≤ d → ∃ m2, w.messages p (k + j) = .msg m2) →
      (pmap.get p)[i + d]? = some c → w.messages p (k + d) = .msg m →
      (verifyLoop w pmap p k i checked total).out = .error (.osExit 1) ∧
      reads p (verifyLoop w pmap p k i checked total).events ≤ d + 1 := by
  intro d
  induction d with
  | zero =>
    intro k i checked total _ hc hm
    simp only [Nat.add_zero] at hc hm
    have hlt : i < (pmap.get p).length := by
      rcases Nat.lt_or_ge i (pmap.get p).length with h | h
      · exact h
      · rw [List.getElem?_eq_none h] at hc
        simp at hc
    have hci : (pmap.get p)[i] = c := by
      rw [List.getElem?_eq_getElem hlt] at hc
      exact Option.some.inj hc
    rw [verifyLoop, hm]
    simp only [hlt, dite_true, hci]
    by_cases hv : m.value = c.message
    · have ho : m.offset ≠ c.offset := by
        rcases hne with h | h
        · exact absurd hv h
        · exact h
      simp [hv, ho, reads]
    · simp [hv, reads]
  | succ d ih =>
    intro k i checked total hs hc hm
    obtain ⟨m0, hm0⟩ := hs 0 (by omega)
    simp only [Nat.add_zero] at hm0
    have hlt : i + (d + 1) < (pmap.get p).length := by
      rcases Nat.lt_or_ge (i + (d + 1)) (pmap.get p).length with h | h
      · exact h
      · rw [List.getElem?_eq_none h] at hc
        simp at hc
    have hlt0 : i < (pmap.get p).length := by omega
    rw [verifyLoop, hm0]
    simp only [hlt0, dite_true]
    split_ifs with h1 h2 h3
    · simp [reads]
    · simp [reads]
    · omega
    · have h := ih (k + 1) (i + 1) (checked + 1) total
        (fun j hj => by
          have := hs (j + 1) (by omega)
          rwa [show k + 1 + j = k + (j + 1) by omega])
        (by rwa [show i + 1 + d = i + (d + 1) by omega])
        (by rwa [show k + 1 + d = k + (d + 1) by omega])
      refine ⟨by simpa [Res.after] using h.1, ?_⟩
      simp only [Res.after, List.singleton_append, reads_recv_cons]
      omega

/-- Started inside the slice, the loop blocks only on one of the receives that
are left to check. -/
theorem verifyLoop_blocked (w : World) (pmap : PMap) (p : Int) :
    ∀ (n k i checked total : Nat), (pmap.get p).length - i = n → i < (pmap.get p).length →
      (verifyLoop w pmap p k i checked total).out = .error .blockedForever →
      ∃ j, j < n ∧ w.messages p (k + j) = .blocked := by
  intro n
  induction n with
  | zero => intro k i checked total hn hlt; omega
  | succ n ih =>
    intro k i checked total hn hlt
    rw [verifyLoop]
    cases hm : w.messages p k with
    | closed => simp
    | blocked => exact fun _ => ⟨0, by omega, by simpa using hm⟩
    | msg m =>
      simp only [hlt, dite_true]
      split_ifs with h1 h2 h3
      · simp
      · simp
      · cases hc : w.consumerCloseErr p <;> simp
      · intro h
        obtain ⟨j, hj, hb⟩ := ih (k + 1) (i + 1) (checked + 1) total (by omega) (by omega)
          (by simpa [Res.after] using h)
        exact ⟨j + 1, by omega, by rwa [show k + (j + 1) = k + 1 + j by omega]⟩

/-! ## The loop over the partitions -/

theorem reads_other (p q : Int) (hne : q ≠ p) :
    ∀ es : List Event, (∀ e ∈ es, VerifyEvent q e) → reads p es = 0
  | [], _ => rfl
  | e :: es, h => by
    have ih := reads_other p q hne es (fun x hx => h x (List.mem_cons_of_mem _ hx))
    have he := h e (List.mem_cons_self _ _)
    rw [show e :: es = [e] ++ es from rfl, reads_append, ih]
    rcases he with ⟨k, rfl⟩ | rfl | ⟨t, rfl⟩ <;> simp [reads, hne]

theorem verifyPartitions_cons_error (w : World) (pmap : PMap) (q : Int) (rest : List Int)
    (total : Nat) (a : Abort) (h1 : w.newConsumerErr q = none)
    (h2 : w.consumePartitionErr q = none)
    (h3 : (verifyLoop w pmap q 0 0 0 total).out = .error a) :
    verifyPartitions w pmap (q :: rest) total =
      ⟨(verifyLoop w pmap q 0 0 0 total).events, .error a⟩ := by
  rw [verifyPartitions, h1, h2]
  cases hv : verifyLoop w pmap q 0 0 0 total with
  | mk es out =>
    rw [hv] at h3
    simp only at h3
    subst h3
    rfl

theorem verifyPartitions_cons_ok (w : World) (pmap : PMap) (q : Int) (rest : List Int)
    (total t : Nat) (h1 : w.newConsumerErr q = none)
    (h2 : w.consumePartitionErr q = none)
    (h3 : (verifyLoop w pmap q 0 0 0 total).out = .ok t) :
    verifyPartitions w pmap (q :: rest) total =
      (verifyPartitions w pmap rest t).after (verifyLoop w pmap q 0 0 0 total).events := by
  rw [verifyPartitions, h1, h2]
  cases hv : verifyLoop w pmap q 0 0 0 total with
  | mk es out =>
    rw [hv] at h3
    simp only at h3
    subst h3
    rfl

/-- The case analysis every proof about the loop over partitions goes through:
an error opening the consumer, an aborted verify loop, or a finished one. -/
theorem verifyPartitions_cases (w : World) (pmap : PMap) (q : Int) (rest : List Int)
    (total : Nat) :
    (∃ e, verifyPartitions w pmap (q :: rest) total = ⟨[], .error (.panicked (.err e))⟩) ∨
    (∃ a, (verifyLoop w pmap q 0 0 0 total).out = .error a ∧
      verifyPartitions w pmap (q :: rest) total =
        ⟨(verifyLoop w pmap q 0 0 0 total).events, .error a⟩) ∨
    (∃ t, w.newConsumerErr q = none ∧ w.consumePartitionErr q = none ∧
      (verifyLoop w pmap q 0 0 0 total).out = .ok t ∧
      verifyPartitions w pmap (q :: rest) total =
        (verifyPartitions w pmap rest t).after (verifyLoop w pmap q 0 0 0 total).events) := by
  cases h1 : w.newConsumerErr q with
  | some e => exact Or.inl ⟨e, by rw [verifyPartitions, h1]⟩
  | none =>
    cases h2 : w.consumePartitionErr q with
    | some e => exact Or.inl ⟨e, by rw [verifyPartitions, h1, h2]⟩
    | none =>
      cases h3 : (verifyLoop w pmap q 0 0 0 total).out with
      | error a => exact Or.inr (Or.inl ⟨a, rfl, verifyPartitions_cons_error w pmap q rest total a h1 h2 h3⟩)
      | ok t =>
        exact Or.inr (Or.inr ⟨t, rfl, rfl, rfl, verifyPartitions_cons_ok w pmap q rest total t h1 h2 h3⟩)

theorem verifyPartitions_events (w : World) (pmap : PMap) :
    ∀ (order : List Int) (total : Nat),
      ∀ e ∈ (verifyPartitions w pmap order total).events, ∃ q, q ∈ order ∧ VerifyEvent q e
  | [], total => by simp [verifyPartitions]
  | q :: rest, total => by
    intro e he
    have hq := verifyLoop_events w pmap q _ 0 0 0 total rfl
    rcases verifyPartitions_cases w pmap q rest total with ⟨x, h⟩ | ⟨a, _, h⟩ | ⟨t, _, _, _, h⟩
    · rw [h] at he
      simp at he
    · rw [h] at he
      exact ⟨q, List.mem_cons_self _ _, hq e he⟩
    · rw [h] at he
      simp only [Res.after, List.mem_append] at he
      rcases he with he | he
      · exact ⟨q, List.mem_cons_self _ _, hq e he⟩
      · obtain ⟨q2, hq2, hv⟩ := verifyPartitions_events w pmap rest t e he
        exact ⟨q2, List.mem_cons_of_mem _ hq2, hv⟩

/-- Over non-empty slices the loop never indexes out of range, and it receives
from a partition at most its slice length per visit. -/
theorem verifyPartitions_bounds (w : World) (pmap : PMap) (p : Int) :
    ∀ (order : List Int) (total : Nat), (∀ q ∈ order, 0 < (pmap.get q).length) →
      (verifyPartitions w pmap order total).out ≠ .error (.panicked .indexOutOfRange) ∧
      reads p (verifyPartitions w pmap order total).events ≤
        order.count p * (pmap.get p).length
  | [], total, _ => by simp [verifyPartitions, reads]
  | q :: rest, total, hne => by
    have hq := verifyLoop_bounds w pmap q _ 0 0 0 total rfl (hne q (List.mem_cons_self _ _))
    have hev := verifyLoop_events w pmap q _ 0 0 0 total rfl
    have hrd : reads p (verifyLoop w pmap q 0 0 0 total).events ≤
        (if q = p then 1 else 0) * (pmap.get p).length := by
      by_cases hqp : q = p
      · subst hqp
        simpa using hq.2
      · simp [hqp, reads_other p q hqp _ hev]
    have hcount : (q :: rest).count p = (if q = p then 1 else 0) + rest.count p := by
      rw [List.count_cons]
      by_cases hqp : q = p <;> simp [hqp, Nat.add_comm]
    rw [hcount, Nat.add_mul]
    rcases verifyPartitions_cases w pmap q rest total with ⟨x, h⟩ | ⟨a, ha, h⟩ | ⟨t, _, _, _, h⟩
    · rw [h]
      simp [reads]
    · rw [h]
      refine ⟨?_, ?_⟩
      · rw [← ha]
        exact hq.1
      · exact le_trans hrd (Nat.le_add_right _ _)
    · have ih := verifyPartitions_bounds w pmap p rest t
        (fun x hx => hne x (List.mem_cons_of_mem _ hx))
      rw [h]
      refine ⟨ih.1, ?_⟩
      simp only [Res.after, reads_append]
      omega

/-- The partition loop looks only at the first `len(pmap[q])` receives of each
partition it visits. -/
theorem verifyPartitions_congr (w : World) (s2 : Int → Nat → Recv) (pmap : PMap) :
    ∀ (order : List Int) (total : Nat),
      (∀ q ∈ order, 0 < (pmap.get q).length ∧
        ∀ k, k < (pmap.get q).length → s2 q k = w.messages q k) →
      verifyPartitions { w with messages := s2 } pmap order total =
        verifyPartitions w pmap order total
  | [], total, _ => by simp [verifyPartitions]
  | q :: rest, total, h => by
    have hq := h q (List.mem_cons_self _ _)
    have hl := verifyLoop_congr w { w with messages := s2 } pmap q rfl _ 0 0 0 total rfl hq.1
      (fun j hj => by simpa using hq.2 j hj)
    have ih := fun t => verifyPartitions_congr w s2 pmap rest t
      (fun x hx => h x (List.mem_cons_of_mem _ hx))
    simp only [verifyPartitions, hl, ih]

theorem verifyPartitions_match (w : World) (pmap : PMap) :
    ∀ (order : List Int) (total : Nat),
      (∀ q ∈ order, w.newConsumerErr q = none ∧ w.consumePartitionErr q = none ∧
        w.consumerCloseErr q = none ∧ 0 < (pmap.get q).length ∧
        ∀ j, j < (pmap.get q).length → ∃ m c, w.messages q j = .msg m ∧
          (pmap.get q)[j]? = some c ∧ m.value = c.message ∧ m.offset = c.offset) →
      (verifyPartitions w pmap order total).out = .ok (total + expected pmap order)
  | [], total, _ => by simp [verifyPartitions, expected]
  | q :: rest, total, h => by
    obtain ⟨h1, h2, h3, h4, h5⟩ := h q (List.mem_cons_self _ _)
    have hl := verifyLoop_match w pmap q h3 _ 0 0 0 total rfl h4
      (fun j hj => by simpa using h5 j hj)
    have ih := verifyPartitions_match w pmap rest (total + (0 + ((pmap.get q).length - 0)))
      (fun x hx => h x (List.mem_cons_of_mem _ hx))
    rw [verifyPartitions_cons_ok w pmap q rest total _ h1 h2 hl]
    simp only [Res.after, ih, expected, List.map_cons, List.sum_cons]
    congr 1
    omega

theorem verifyPartitions_full (w : World) (pmap : PMap) :
    ∀ (order : List Int) (total t : Nat),
      (∀ q ∈ order, 0 < (pmap.get q).length ∧
        ∀ j, j < (pmap.get q).length → w.messages q j ≠ .closed) →
      (verifyPartitions w pmap order total).out = .ok t →
      t = total + expected pmap order ∧
      ∀ p, reads p (verifyPartitions w pmap order total).events =
        order.count p * (pmap.get p).length
  | [], total, t, _, h => by
    simp only [verifyPartitions, Except.ok.injEq] at h
    simp [verifyPartitions, expected, reads, h]
  | q :: rest, total, t, hq, h => by
    have hq0 := hq q (List.mem_cons_self _ _)
    rcases verifyPartitions_cases w pmap q rest total with ⟨x, hx⟩ | ⟨a, _, hx⟩ | ⟨t1, _, _, hl, hx⟩
    · rw [hx] at h
      simp at h
    · rw [hx] at h
      simp at h
    · rw [hx] at h ⊢
      have hf := verifyLoop_full w pmap q _ 0 0 0 total t1 rfl hq0.1
        (fun j hj => by simpa using hq0.2 j hj) hl
      have ih := verifyPartitions_full w pmap rest t1 t
        (fun x hx => hq x (List.mem_cons_of_mem _ hx)) (by simpa [Res.after] using h)
      refine ⟨?_, ?_⟩
      · simp only [expected, List.map_cons, List.sum_cons] at ih ⊢
        omega
      · intro p
        simp only [Res.after, reads_append, ih.2 p, List.count_cons]
        by_cases hqp : q = p
        · subst hqp
          simp only [hf.2, beq_self_eq_true, if_true, Nat.add_mul]
          omega
        · have := reads_other p q hqp _ (verifyLoop_events w pmap q _ 0 0 0 total rfl)
          simp [this, hqp]

/-- A mismatch on a visited partition whose stream delivers up to the mismatch:
the partition loop aborts, and does not read that partition past the mismatch. -/
theorem verifyPartitions_mismatch (w : World) (pmap : PMap) (p : Int) (c : check)
    (m : ConsumerMessage) (i0 : Nat) (hne : m.value ≠ c.message ∨ m.offset ≠ c.offset)
    (hdel : ∀ j, j ≤ i0 → ∃ m2, w.messages p j = .msg m2)
    (hc : (pmap.get p)[i0]? = some c) (hm : w.messages p i0 = .msg m) :
    ∀ (order : List Int) (total : Nat), p ∈ order → (∀ q ∈ order, 0 < (pmap.get q).length) →
      ∃ a, (verifyPartitions w pmap order total).out = .error a ∧
        a ≠ .panicked .indexOutOfRange ∧
        ((∀ q ∈ order, q ≠ p → ∀ k, k < (pmap.get q).length → w.messages q k ≠ .blocked) →
          a ≠ .blockedForever) ∧
        reads p (verifyPartitions w pmap order total).events ≤ i0 + 1
  | [], total, hp, _ => by simp at hp
  | q :: rest, total, hp, hpos => by
    have hb := verifyLoop_bounds w pmap q _ 0 0 0 total rfl (hpos q (List.mem_cons_self _ _))
    have hev := verifyLoop_events w pmap q _ 0 0 0 total rfl
    have hmis : q = p → (verifyLoop w pmap q 0 0 0 total).out = .error (.osExit 1) ∧
        reads p (verifyLoop w pmap q 0 0 0 total).events ≤ i0 + 1 := by
      intro hqp
      subst hqp
      exact verifyLoop_mismatch w pmap q c m hne i0 0 0 0 total
        (fun j hj => by simpa using hdel j hj) (by simpa using hc) (by simpa using hm)
    have hrd : reads p (verifyLoop w pmap q 0 0 0 total).events ≤ i0 + 1 := by
      by_cases hqp : q = p
      · exact (hmis hqp).2
      · rw [reads_other p q hqp _ hev]
        omega
    rcases verifyPartitions_cases w pmap q rest total with ⟨x, hx⟩ | ⟨a, ha, hx⟩ | ⟨t1, _, _, hl, hx⟩
    · rw [hx]
      exact ⟨_, rfl, by simp, by simp, by simp [reads]⟩
    · rw [hx]
      refine ⟨a, rfl, ?_, ?_, hrd⟩
      · intro h
        rw [h] at ha
        exact hb.1 ha
      · intro hnb h
        rw [h] at ha
        have hqp : q ≠ p := by
          intro e
          rw [(hmis e).1] at ha
          simp at ha
        obtain ⟨j, hj, hbl⟩ := verifyLoop_blocked w pmap q _ 0 0 0 total rfl
          (hpos q (List.mem_cons_self _ _)) ha
        exact hnb q (List.mem_cons_self _ _) hqp j (by simpa using hj) (by simpa using hbl)
    · have hqp : q ≠ p := by
        intro e
        rw [(hmis e).1] at hl
        simp at hl
      have hp2 : p ∈ rest := by
        rcases List.mem_cons.mp hp with h | h
        · exact absurd h.symm hqp
        · exact h
      obtain ⟨a, h1, h2, h3, h4⟩ := verifyPartitions_mismatch w pmap p c m i0 hne hdel hc hm
        rest t1 hp2 (fun x hx => hpos x (List.mem_cons_of_mem _ hx))
      rw [hx]
      refine ⟨a, by simpa [Res.after] using h1, h2,
        fun hnb => h3 (fun x hx => hnb x (List.mem_cons_of_mem _ hx)), ?_⟩
      simp only [Res.after, reads_append, reads_other p q hqp _ hev]
      omega

/-! ## The payloads -/

theorem digitChar_toNat : ∀ d, d < 10 → (Nat.digitChar d).toNat - 48 = d := by
  decide

theorem decode_toDigitsCore :
    ∀ (fuel n : Nat) (ds : List Char), n < fuel →
      (Nat.toDigitsCore 10 fuel n ds).foldl decodeStep 0 = ds.foldl decodeStep n := by
  intro fuel
  induction fuel with
  | zero => intro n ds h; omega
  | succ fuel ih =>
    intro n ds h
    have hd := digitChar_toNat (n % 10) (Nat.mod_lt _ (by decide))
    unfold Nat.toDigitsCore
    simp only
    split_ifs with h0
    · have hn : n % 10 = n := Nat.mod_eq_of_lt (by omega)
      simp only [List.foldl_cons, decodeStep, hd]
      congr 1
      omega
    · rw [ih (n / 10) _ (by omega)]
      simp only [List.foldl_cons, decodeStep, hd]
      congr 1
      omega

theorem toDigits_injective (i j : Nat) (h : Nat.toDigits 10 i = Nat.toDigits 10 j) : i = j := by
  have hi := decode_toDigitsCore (i + 1) i [] (by omega)
  have hj := decode_toDigitsCore (j + 1) j [] (by omega)
  unfold Nat.toDigits at h
  rw [h, hj] at hi
  simpa using hi.symm

/-- The decimal formatting of the index makes the payloads pairwise distinct. -/
theorem message_injective (i j : Nat) (h : message i = message j) : i = j := by
  unfold message at h
  have hd := congrArg String.data h
  simp only [String.data_append, List.append_assoc] at hd
  have h2 := List.append_cancel_right (List.append_cancel_left hd)
  apply toDigits_injective
  simpa [Nat.repr, List.asString] using h2

/-! ## The expectation index -/

theorem sum_map_indicator (a : Int) :
    ∀ ks : List Int, (ks.map (fun p => if a = p then 1 else 0)).sum = ks.count a
  | [] => rfl
  | k :: ks => by
    rw [List.map_cons, List.sum_cons, sum_map_indicator a ks, List.count_cons]
    by_cases h : a = k
    · subst h; simp; omega
    · have h2 : ¬ k = a := fun e => h e.symm
      simp [h, h2]

/-- Sorting a list into classes listed without repetition loses nothing. -/
theorem sum_filter_lengths (f : Nat → Int) (ks : List Int) (hnd : ks.Nodup) :
    ∀ l : List Nat, (∀ x ∈ l, f x ∈ ks) →
      (ks.map (fun p => (l.filter (fun x => decide (f x = p))).length)).sum = l.length
  | [], _ => by simp
  | x :: l, h => by
    have ih := sum_filter_lengths f ks hnd l (fun y hy => h y (List.mem_cons_of_mem _ hy))
    have hx : ks.count (f x) = 1 := List.count_eq_one_of_mem hnd (h x (List.mem_cons_self _ _))
    have hstep : ∀ p, ((x :: l).filter (fun y => decide (f y = p))).length =
        (if f x = p then 1 else 0) + (l.filter (fun y => decide (f y = p))).length := by
      intro p
      rw [List.filter_cons]
      by_cases hp : f x = p <;> simp [hp, Nat.add_comm]
    simp only [hstep, List.sum_map_add, sum_map_indicator, ih, hx, List.length_cons]
    omega

/-- The index after a produce loop whose sends all succeeded. -/
theorem produce_index (w : World) (N : Nat) (res : Nat → Int × Int)
    (hsend : ∀ i, i < N → w.sendMessage i (message i) = .ok (res i)) :
    ∃ pmap, produceLoop w N 0 PMap.empty =
        ⟨(List.range N).map (fun j => Event.sendMessage j (message j)), .ok pmap⟩ ∧
      (∀ p, pmap.get p =
        ((List.range N).filter (fun j => decide ((res j).1 = p))).map (recordOf res)) ∧
      (∀ p, p ∈ pmap.keys ↔ ∃ j, j < N ∧ (res j).1 = p) ∧ pmap.keys.Nodup := by
  obtain ⟨pm, h1, h2, h3, h4⟩ := produceLoop_ok w res N 0 PMap.empty
    (fun j _ hj => hsend j (by omega))
  refine ⟨pm, ?_, ?_, ?_, ?_⟩
  · rw [h1, List.range_eq_range']
  · intro p
    rw [h2 p, PMap.get_empty, List.range_eq_range', List.nil_append]
  · intro p
    rw [h3 p]
    constructor
    · rintro (h | ⟨j, _, hj, hp⟩)
      · simp [PMap.empty] at h
      · exact ⟨j, by omega, hp⟩
    · rintro ⟨j, hj, hp⟩
      exact Or.inr ⟨j, Nat.zero_le _, by omega, hp⟩
  · exact h4 (by simp [PMap.empty])

/-- Every index that a produce loop finished with is the one described by
`produce_index`, for the results the world gave. -/
theorem produce_index_of_ok (w : World) (N : Nat) (pmap : PMap)
    (h : (produceLoop w N 0 PMap.empty).out = .ok pmap) :
    (∀ i, i < N → w.sendMessage i (message i) = .ok (resultsOf w i)) ∧
    produceLoop w N 0 PMap.empty =
      ⟨(List.range N).map (fun j => Event.sendMessage j (message j)), .ok pmap⟩ ∧
    (∀ p, pmap.get p =
      ((List.range N).filter (fun j => decide ((resultsOf w j).1 = p))).map
        (recordOf (resultsOf w))) ∧
    (∀ p, p ∈ pmap.keys ↔ ∃ j, j < N ∧ (resultsOf w j).1 = p) ∧ pmap.keys.Nodup := by
  have hs : ∀ i, i < N → w.sendMessage i (message i) = .ok (resultsOf w i) := by
    intro i hi
    obtain ⟨r, hr⟩ := produceLoop_sends_ok w N 0 PMap.empty pmap h i (Nat.zero_le _) (by omega)
    simp [resultsOf, hr]
  obtain ⟨pm, h1, h2, h3, h4⟩ := produce_index w N (resultsOf w) hs
  have hpm : pm = pmap := by
    rw [h1] at h
    simpa using h
  subst hpm
  exact ⟨hs, h1, h2, h3, h4⟩

/-- Keys of the index hold non-empty slices, and the slice lengths add up to the
number of sends. -/
theorem produce_index_lengths (w : World) (N : Nat) (pmap : PMap)
    (h : (produceLoop w N 0 PMap.empty).out = .ok pmap) :
    (∀ p ∈ pmap.keys, 0 < (pmap.get p).length) ∧ expected pmap pmap.keys = N := by
  obtain ⟨_, _, hget, hkeys, hnd⟩ := produce_index_of_ok w N pmap h
  refine ⟨?_, ?_⟩
  · intro p hp
    obtain ⟨j, hj, hjp⟩ := (hkeys p).mp hp
    rw [hget p, List.length_map, List.length_pos_iff_exists_mem]
    exact ⟨j, List.mem_filter.mpr ⟨List.mem_range.mpr hj, by simpa using hjp⟩⟩
  · have := sum_filter_lengths (fun j => (resultsOf w j).1) pmap.keys hnd (List.range N)
      (fun x hx => (hkeys _).mpr ⟨x, List.mem_range.mp hx, rfl⟩)
    simp only [expected, hget, List.length_map]
    simpa using this

/-! ## The whole run -/

theorem checkTopicErrorCodes_ok_iff (c : ProtocolCodes) :
    ∀ resp : List TopicErrorCode, checkTopicErrorCodes c resp = .ok () ↔
      ∀ t ∈ resp, t.ErrorCode = c.ErrNone ∨ t.ErrorCode = c.ErrTopicAlreadyExists
  | [] => by simp [checkTopicErrorCodes]
  | t :: rest => by
    have ih := checkTopicErrorCodes_ok_iff c rest
    rw [checkTopicErrorCodes]
    by_cases h : t.ErrorCode ≠ c.ErrNone ∧ t.ErrorCode ≠ c.ErrTopicAlreadyExists
    · rw [if_pos h]
      constructor
      · intro h2
        exact absurd h2 (by simp)
      · intro h2
        rcases h2 t (List.mem_cons_self _ _) with h3 | h3
        · exact absurd h3 h.1
        · exact absurd h3 h.2
    · rw [if_neg h, ih]
      have ht : t.ErrorCode = c.ErrNone ∨ t.ErrorCode = c.ErrTopicAlreadyExists := by
        by_contra hcon
        exact h ⟨fun e => hcon (Or.inl e), fun e => hcon (Or.inr e)⟩
      constructor
      · intro h2 x hx
        rcases List.mem_cons.mp hx with hx | hx
        · exact hx ▸ ht
        · exact h2 x hx
      · exact fun h2 x hx => h2 x (List.mem_cons_of_mem _ hx)

theorem checkTopicErrorCodes_error (c : ProtocolCodes) :
    ∀ (resp : List TopicErrorCode) (code : Nat),
      checkTopicErrorCodes c resp = .error code → code = 1
  | [], code, h => by simp [checkTopicErrorCodes] at h
  | t :: rest, code, h => by
    rw [checkTopicErrorCodes] at h
    split_ifs at h with h1
    · simpa using h.symm
    · exact checkTopicErrorCodes_error c rest code h

/-- Every exit taken inside `setup` has status 1. -/
theorem setup_error (c : ProtocolCodes) (w : World) (code : Nat)
    (h : setup c w = .error code) : code = 1 := by
  unfold setup at h
  cases h1 : w.startErr with
  | some e => rw [h1] at h; simpa using h.symm
  | none =>
    cases h2 : w.dialErr with
    | some e => rw [h1, h2] at h; simpa using h.symm
    | none =>
      cases h3 : w.createTopics with
      | error e => rw [h1, h2, h3] at h; simpa using h.symm
      | ok resp =>
        rw [h1, h2, h3] at h
        exact checkTopicErrorCodes_error c resp code h

theorem produceLoop_error (w : World) :
    ∀ (n i : Nat) (pmap : PMap) (a : Abort), (produceLoop w n i pmap).out = .error a →
      ∃ e, a = .panicked (.err e) := by
  intro n
  induction n with
  | zero => intro i pmap a h; simp [produceLoop] at h
  | succ n ih =>
    intro i pmap a h
    unfold produceLoop at h
    cases hs : w.sendMessage i (message i) with
    | error e =>
      rw [hs] at h
      exact ⟨e, by simpa using h.symm⟩
    | ok r =>
      obtain ⟨partition, offset⟩ := r
      rw [hs] at h
      exact ih _ _ a (by simpa [Res.after] using h)

/-- The produce loop does not look at the streams. -/
theorem produceLoop_messages (w : World) (s2 : Int → Nat → Recv) :
    ∀ (n i : Nat) (pmap : PMap),
      produceLoop { w with messages := s2 } n i pmap = produceLoop w n i pmap := by
  intro n
  induction n with
  | zero => intro i pmap; rfl
  | succ n ih =>
    intro i pmap
    simp only [produceLoop, ih]

theorem printed_append (a b : List Event) : printed (a ++ b) = printed a ++ printed b := by
  simp [printed, List.filterMap_append]

theorem teardowns_append (a b : List Event) : teardowns (a ++ b) = teardowns a + teardowns b := by
  simp [teardowns]

theorem sends_append (a b : List Event) : sends (a ++ b) = sends a + sends b := by
  simp [sends, List.filter_append]

theorem quiet_of_produce :
    ∀ es : List Event, (∀ x ∈ es, ProduceEvent x) →
      printed es = [] ∧ teardowns es = 0 ∧ ∀ p, reads p es = 0
  | [], _ => by simp [printed, teardowns, reads]
  | e :: es, h => by
    have ih := quiet_of_produce es (fun x hx => h x (List.mem_cons_of_mem _ hx))
    have he := h e (List.mem_cons_self _ _)
    rw [show e :: es = [e] ++ es from rfl]
    simp only [printed_append, teardowns_append, reads_append, ih]
    rcases he with ⟨j, v, rfl⟩ | rfl <;> simp [printed, teardowns, reads]

theorem quiet_of_verify :
    ∀ es : List Event, (∀ x ∈ es, ∃ q, VerifyEvent q x) →
      printed es = [] ∧ teardowns es = 0 ∧ sends es = 0
  | [], _ => by simp [printed, teardowns, sends]
  | e :: es, h => by
    have ih := quiet_of_verify es (fun x hx => h x (List.mem_cons_of_mem _ hx))
    obtain ⟨q, he⟩ := h e (List.mem_cons_self _ _)
    rw [show e :: es = [e] ++ es from rfl]
    simp only [printed_append, teardowns_append, sends_append, ih]
    rcases he with ⟨k, rfl⟩ | rfl | ⟨t, rfl⟩ <;> simp [printed, teardowns, sends]

theorem produceLoop_produceEvents (w : World) (N : Nat) :
    ∀ x ∈ (produceLoop w N 0 PMap.empty).events ++ [Event.producerClose], ProduceEvent x := by
  intro x hx
  rcases List.mem_append.mp hx with h | h
  · exact Or.inl (produceLoop_events w N 0 PMap.empty x h)
  · exact Or.inr (by simpa using h)

/-- The run once the verifier is reached: what `main` does with the result of
the loop over the partitions. -/
theorem mainN_verify (c : ProtocolCodes) (N : Nat) (w : World) (pmap : PMap)
    (hs : setup c w = .ok ()) (h1 : w.newSyncProducerErr = none)
    (h2 : (produceLoop w N 0 PMap.empty).out = .ok pmap) (h3 : w.producerCloseErr = none) :
    mainN c N w =
      match (verifyPartitions w pmap (w.rangeOrder pmap.keys) 0).out with
      | .ok t =>
        ⟨(produceLoop w N 0 PMap.empty).events ++ [.producerClose] ++
          (verifyPartitions w pmap (w.rangeOrder pmap.keys) 0).events ++ [.printf t] ++ clean,
          .returned⟩
      | .error (.panicked v) =>
        ⟨(produceLoop w N 0 PMap.empty).events ++ [.producerClose] ++
          (verifyPartitions w pmap (w.rangeOrder pmap.keys) 0).events ++ clean, .panicked v⟩
      | .error (.osExit code) =>
        ⟨(produceLoop w N 0 PMap.empty).events ++ [.producerClose] ++
          (verifyPartitions w pmap (w.rangeOrder pmap.keys) 0).events, .osExit code⟩
      | .error .blockedForever =>
        ⟨(produceLoop w N 0 PMap.empty).events ++ [.producerClose] ++
          (verifyPartitions w pmap (w.rangeOrder pmap.keys) 0).events, .blockedForever⟩ := by
  unfold mainN body
  rw [hs, h1]
  cases hP : produceLoop w N 0 PMap.empty with
  | mk es out =>
    rw [hP] at h2
    simp only at h2
    subst h2
    simp only [h3]
    cases hV : verifyPartitions w pmap (w.rangeOrder pmap.keys) 0 with
    | mk es2 out2 =>
      cases out2 with
      | ok t => rfl
      | error a => cases a <;> rfl

/-- The run when the verifier is not reached: an exit in `setup`, or a panic
before or in the produce phase, after which the deferred clean-up runs. -/
theorem mainN_early (c : ProtocolCodes) (N : Nat) (w : World)
    (h : setup c w ≠ .ok () ∨ w.newSyncProducerErr ≠ none ∨
      (∀ pmap, (produceLoop w N 0 PMap.empty).out ≠ .ok pmap) ∨ w.producerCloseErr ≠ none) :
    ((mainN c N w).exit = .osExit 1 ∧ (mainN c N w).events = []) ∨
    (∃ e es, (mainN c N w).exit = .panicked (.err e) ∧ (mainN c N w).events = es ++ clean ∧
      ∀ x ∈ es, ProduceEvent x) := by
  unfold mainN body
  cases hs : setup c w with
  | error code =>
    have := setup_error c w code hs
    subst this
    exact Or.inl ⟨rfl, rfl⟩
  | ok u =>
    cases h1 : w.newSyncProducerErr with
    | some e => exact Or.inr ⟨e, [], rfl, rfl, by simp⟩
    | none =>
      cases hP : produceLoop w N 0 PMap.empty with
      | mk es out =>
        have hev : ∀ x ∈ es, ProduceEvent x := fun x hx =>
          Or.inl (produceLoop_events w N 0 PMap.empty x (by rw [hP]; exact hx))
        cases out with
        | error a =>
          obtain ⟨e, rfl⟩ := produceLoop_error w N 0 PMap.empty a (by rw [hP])
          exact Or.inr ⟨e, es, rfl, rfl, hev⟩
        | ok pmap =>
          cases h3 : w.producerCloseErr with
          | some e =>
            refine Or.inr ⟨e, es ++ [.producerClose], rfl, rfl, ?_⟩
            intro x hx
            rcases List.mem_append.mp hx with hx | hx
            · exact hev x hx
            · exact Or.inr (by simpa using hx)
          | none =>
            exfalso
            rcases h with h | h | h | h
            · exact h hs
            · exact h h1
            · exact h pmap (by rw [hP])
            · exact h h3

/-- The four ways the run continues once the verifier is reached. -/
theorem mainN_verify_cases (c : ProtocolCodes) (N : Nat) (w : World) (pmap : PMap)
    (hs : setup c w = .ok ()) (h1 : w.newSyncProducerErr = none)
    (h2 : (produceLoop w N 0 PMap.empty).out = .ok pmap) (h3 : w.producerCloseErr = none) :
    (∃ t, (verifyPartitions w pmap (w.rangeOrder pmap.keys) 0).out = .ok t ∧
      mainN c N w = ⟨(produceLoop w N 0 PMap.empty).events ++ [.producerClose] ++
        (verifyPartitions w pmap (w.rangeOrder pmap.keys) 0).events ++ [.printf t] ++ clean,
        .returned⟩) ∨
    (∃ v, (verifyPartitions w pmap (w.rangeOrder pmap.keys) 0).out = .error (.panicked v) ∧
      mainN c N w = ⟨(produceLoop w N 0 PMap.empty).events ++ [.producerClose] ++
        (verifyPartitions w pmap (w.rangeOrder pmap.keys) 0).events ++ clean, .panicked v⟩) ∨
    (∃ code, (verifyPartitions w pmap (w.rangeOrder pmap.keys) 0).out = .error (.osExit code) ∧
      mainN c N w = ⟨(produceLoop w N 0 PMap.empty).events ++ [.producerClose] ++
        (verifyPartitions w pmap (w.rangeOrder pmap.keys) 0).events, .osExit code⟩) ∨
    ((verifyPartitions w pmap (w.rangeOrder pmap.keys) 0).out = .error .blockedForever ∧
      mainN c N w = ⟨(produceLoop w N 0 PMap.empty).events ++ [.producerClose] ++
        (verifyPartitions w pmap (w.rangeOrder pmap.keys) 0).events, .blockedForever⟩) := by
  have h := mainN_verify c N w pmap hs h1 h2 h3
  cases hV : (verifyPartitions w pmap (w.rangeOrder pmap.keys) 0).out with
  | ok t =>
    rw [hV] at h
    exact Or.inl ⟨t, rfl, h⟩
  | error a =>
    rw [hV] at h
    cases a with
    | panicked v => exact Or.inr (Or.inl ⟨v, rfl, h⟩)
    | osExit code => exact Or.inr (Or.inr (Or.inl ⟨code, rfl, h⟩))
    | blockedForever => exact Or.inr (Or.inr (Or.inr ⟨rfl, h⟩))

/-- Either the verifier is reached, or the run ended before it. -/
theorem mainN_reached_or_early (c : ProtocolCodes) (N : Nat) (w : World) :
    (∃ pmap, setup c w = .ok () ∧ w.newSyncProducerErr = none ∧
      (produceLoop w N 0 PMap.empty).out = .ok pmap ∧ w.producerCloseErr = none) ∨
    (((mainN c N w).exit = .osExit 1 ∧ (mainN c N w).events = []) ∨
      (∃ e es, (mainN c N w).exit = .panicked (.err e) ∧ (mainN c N w).events = es ++ clean ∧
        ∀ x ∈ es, ProduceEvent x)) := by
  by_cases hs : setup c w = .ok ()
  · by_cases h1 : w.newSyncProducerErr = none
    · by_cases h2 : ∃ pmap, (produceLoop w N 0 PMap.empty).out = .ok pmap
      · by_cases h3 : w.producerCloseErr = none
        · obtain ⟨pmap, h2⟩ := h2
          exact Or.inl ⟨pmap, hs, h1, h2, h3⟩
        · exact Or.inr (mainN_early c N w (Or.inr (Or.inr (Or.inr h3))))
      · exact Or.inr (mainN_early c N w
          (Or.inr (Or.inr (Or.inl (fun pmap hp => h2 ⟨pmap, hp⟩)))))
    · exact Or.inr (mainN_early c N w (Or.inr (Or.inl h1)))
  · exact Or.inr (mainN_early c N w (Or.inl hs))

theorem get_eq_nil_of_not_mem (pmap : PMap) (p : Int) (h : p ∉ pmap.keys) : pmap.get p = [] := by
  simp [PMap.get, h]

theorem quiet_clean : printed clean = [] ∧ sends clean = 0 ∧ ∀ p, reads p clean = 0 := by
  simp [printed, sends, reads, clean]

/-- The order of the `range` loop visits keys only, each once, and all of them. -/
theorem rangeOrder_facts (w : World) (hrange : ∀ ks, (w.rangeOrder ks).Perm ks) (N : Nat)
    (pmap : PMap) (hp : (produceLoop w N 0 PMap.empty).out = .ok pmap) :
    (∀ q ∈ w.rangeOrder pmap.keys, q ∈ pmap.keys ∧ 0 < (pmap.get q).length) ∧
    (w.rangeOrder pmap.keys).Nodup ∧ expected pmap (w.rangeOrder pmap.keys) = N := by
  obtain ⟨hpos, hsum⟩ := produce_index_lengths w N pmap hp
  obtain ⟨_, _, _, _, hnd⟩ := produce_index_of_ok w N pmap hp
  refine ⟨?_, ?_, ?_⟩
  · intro q hq
    have hk := (hrange pmap.keys).mem_iff.mp hq
    exact ⟨hk, hpos q hk⟩
  · exact (hrange pmap.keys).nodup_iff.mpr hnd
  · rw [← hsum]
    unfold expected
    exact ((hrange pmap.keys).map _).sum_eq

theorem pre_quiet (w : World) (N : Nat) (pmap : PMap) (order : List Int) (total : Nat) :
    printed ((produceLoop w N 0 PMap.empty).events ++ [.producerClose] ++
      (verifyPartitions w pmap order total).events) = [] ∧
    teardowns ((produceLoop w N 0 PMap.empty).events ++ [.producerClose] ++
      (verifyPartitions w pmap order total).events) = 0 ∧
    ∀ p, reads p ((produceLoop w N 0 PMap.empty).events ++ [.producerClose] ++
      (verifyPartitions w pmap order total).events) =
        reads p (verifyPartitions w pmap order total).events := by
  have h1 := quiet_of_produce _ (produceLoop_produceEvents w N)
  have h2 := quiet_of_verify (verifyPartitions w pmap order total).events
    (fun x hx => by
      obtain ⟨q, _, hq⟩ := verifyPartitions_events w pmap order total x hx
      exact ⟨q, hq⟩)
  refine ⟨?_, ?_, ?_⟩
  · rw [printed_append, h1.1, h2.1]
    rfl
  · rw [teardowns_append, h1.2.1, h2.2.1]
  · intro p
    rw [reads_append, h1.2.2 p, Nat.zero_add]

/-- C1: for every sequence of successful send results `res i = (partition, offset)`,
`i < N`, and every partition `p`, the produce loop finishes and the slice of the
index under `p` is the list of the records `(p, offset_i, payload_i)` of the sends
assigned to `p`, in increasing order of `i`. -/
theorem index_is_send_subsequence (w : World) (N : Nat) (res : Nat → Int × Int)
    (hsend : ∀ i, i < N → w.sendMessage i (message i) = .ok (res i)) :
    ∃ pmap, (produceLoop w N 0 PMap.empty).out = .ok pmap ∧
      ∀ p, pmap.get p =
        ((List.range N).filter (fun i => decide ((res i).1 = p))).map
          (fun i => (⟨p, (res i).2, message i⟩ : check)) := by
  obtain ⟨pmap, h1, h2, _, _⟩ := produce_index w N res hsend
  refine ⟨pmap, by rw [h1], ?_⟩
  intro p
  rw [h2 p]
  apply List.map_congr_left
  intro i hi
  have hp : (res i).1 = p := by simpa using (List.mem_filter.mp hi).2
  simp [recordOf, hp]

theorem index_is_send_subsequence_witness :
    (∀ i : Nat, i < messageCount →
      goodWorld.sendMessage i (message i) = .ok ((i : Int) % 8, (i : Int) / 8)) ∧
    ∃ pmap, (produceLoop goodWorld messageCount 0 PMap.empty).out = .ok pmap ∧
      ∀ p, pmap.get p =
        ((List.range messageCount).filter (fun (i : Nat) => decide ((i : Int) % 8 = p))).map
          (fun (i : Nat) => (⟨p, (i : Int) / 8, message i⟩ : check)) :=
  ⟨fun _ _ => rfl,
    index_is_send_subsequence goodWorld messageCount (fun (i : Nat) => ((i : Int) % 8, (i : Int) / 8))
      (fun _ _ => rfl)⟩

/-- C2: for every `N` and every sequence of `N` successful send results, the
produce loop finishes with an index whose keys are pairwise distinct and whose
slice lengths, added over the keys, give `N`. -/
theorem index_lengths_sum (w : World) (N : Nat) (res : Nat → Int × Int)
    (hsend : ∀ i, i < N → w.sendMessage i (message i) = .ok (res i)) :
    ∃ pmap, (produceLoop w N 0 PMap.empty).out = .ok pmap ∧ pmap.keys.Nodup ∧
      (pmap.keys.map (fun p => (pmap.get p).length)).sum = N := by
  obtain ⟨pmap, h1, _, _, hnd⟩ := produce_index w N res hsend
  have hp : (produceLoop w N 0 PMap.empty).out = .ok pmap := by rw [h1]
  exact ⟨pmap, hp, hnd, (produce_index_lengths w N pmap hp).2⟩

theorem index_lengths_sum_witness :
    (∀ i : Nat, i < messageCount →
      goodWorld.sendMessage i (message i) = .ok ((i : Int) % 8, (i : Int) / 8)) ∧
    ∃ pmap, (produceLoop goodWorld messageCount 0 PMap.empty).out = .ok pmap ∧
      pmap.keys.Nodup ∧ (pmap.keys.map (fun p => (pmap.get p).length)).sum = 15 :=
  ⟨fun _ _ => rfl,
    index_lengths_sum goodWorld messageCount (fun (i : Nat) => ((i : Int) % 8, (i : Int) / 8))
      (fun _ _ => rfl)⟩

/-- C9: the payloads are pairwise distinct, and for every `N` and every sequence
of `N` successful send results each payload `message i`, `i < N`, sits at exactly
one place (partition, position) of the index. -/
theorem payload_recorded_once (w : World) (N : Nat) (res : Nat → Int × Int)
    (hsend : ∀ i, i < N → w.sendMessage i (message i) = .ok (res i)) :
    (∀ i j, message i = message j → i = j) ∧
    ∃ pmap, (produceLoop w N 0 PMap.empty).out = .ok pmap ∧
      ∀ i, i < N → ∃! pk : Int × Nat,
        ((pmap.get pk.1)[pk.2]?).map check.message = some (message i) := by
  refine ⟨message_injective, ?_⟩
  obtain ⟨pmap, h1, h2, _, _⟩ := produce_index w N res hsend
  refine ⟨pmap, by rw [h1], ?_⟩
  intro i hi
  have hnd : ∀ p, ((List.range N).filter (fun j => decide ((res j).1 = p))).Nodup :=
    fun p => (List.nodup_range N).filter _
  have hmem : i ∈ (List.range N).filter (fun j => decide ((res j).1 = (res i).1)) :=
    List.mem_filter.mpr ⟨List.mem_range.mpr hi, by simp⟩
  obtain ⟨k, hk⟩ := List.mem_iff_getElem?.mp hmem
  refine ⟨((res i).1, k), ?_, ?_⟩
  · simp [h2, hk, recordOf]
  · rintro ⟨q, k2⟩ hq
    simp only [h2, List.getElem?_map, Option.map_map, Option.map_eq_some', Function.comp] at hq
    obtain ⟨j, hj, hmsg⟩ := hq
    have hji : j = i := message_injective j i (by simpa [recordOf] using hmsg)
    subst hji
    have hjm := List.mem_iff_getElem?.mpr ⟨k2, hj⟩
    have hqp : (res j).1 = q := by simpa using (List.mem_filter.mp hjm).2
    subst hqp
    have hlt : k2 < ((List.range N).filter (fun x => decide ((res x).1 = (res j).1))).length := by
      rcases Nat.lt_or_ge k2 _ with h | h
      · exact h
      · rw [List.getElem?_eq_none h] at hj
        simp at hj
    have := List.getElem?_inj hlt (hnd _) (hj.trans hk.symm)
    rw [this]

theorem payload_recorded_once_witness :
    (∀ i : Nat, i < messageCount →
      goodWorld.sendMessage i (message i) = .ok ((i : Int) % 8, (i : Int) / 8)) ∧
    (∀ i j, message i = message j → i = j) ∧
    ∃ pmap, (produceLoop goodWorld messageCount 0 PMap.empty).out = .ok pmap ∧
      ∀ i, i < messageCount → ∃! pk : Int × Nat,
        ((pmap.get pk.1)[pk.2]?).map check.message = some (message i) :=
  ⟨fun _ _ => rfl,
    payload_recorded_once goodWorld messageCount (fun (i : Nat) => ((i : Int) % 8, (i : Int) / 8))
      (fun _ _ => rfl)⟩

/-- C10: whatever the sends return and whatever the streams deliver, the run
never panics on an index out of range in `pmap[partitionID][i]`; and when the
produce loop finishes, a partition is a key of the index exactly when some send
was assigned to it, and every key holds a non-empty slice. -/
theorem index_lookup_in_range (c : ProtocolCodes) (N : Nat) (w : World)
    (hrange : ∀ ks, (w.rangeOrder ks).Perm ks) :
    (mainN c N w).exit ≠ .panicked .indexOutOfRange ∧
    ∀ pmap, (produceLoop w N 0 PMap.empty).out = .ok pmap →
      (∀ p, p ∈ pmap.keys ↔
        ∃ i, i < N ∧ ∃ offset, w.sendMessage i (message i) = .ok (p, offset)) ∧
      (∀ p ∈ pmap.keys, pmap.get p ≠ []) := by
  refine ⟨?_, ?_⟩
  · rcases mainN_reached_or_early c N w with ⟨pmap, hs, h1, h2, h3⟩ | ⟨he, _⟩ | ⟨e, es, he, _⟩
    · have hfacts := rangeOrder_facts w hrange N pmap h2
      have hb := (verifyPartitions_bounds w pmap 0 (w.rangeOrder pmap.keys) 0
        (fun q hq => (hfacts.1 q hq).2)).1
      rcases mainN_verify_cases c N w pmap hs h1 h2 h3 with
        ⟨t, _, h⟩ | ⟨v, hv, h⟩ | ⟨code, _, h⟩ | ⟨_, h⟩
      · rw [h]; simp
      · rw [h]
        intro hcon
        simp only [Exit.panicked.injEq] at hcon
        rw [hcon] at hv
        exact hb hv
      · rw [h]; simp
      · rw [h]; simp
    · rw [he]; simp
    · rw [he]; simp
  · intro pmap hp
    obtain ⟨hs, _, _, hkeys, _⟩ := produce_index_of_ok w N pmap hp
    refine ⟨?_, ?_⟩
    · intro p
      rw [hkeys p]
      constructor
      · rintro ⟨j, hj, hjp⟩
        refine ⟨j, hj, (resultsOf w j).2, ?_⟩
        rw [hs j hj, ← hjp]
      · rintro ⟨j, hj, o, hjo⟩
        refine ⟨j, hj, ?_⟩
        simp [resultsOf, hjo]
    · intro p hk hnil
      have := (produce_index_lengths w N pmap hp).1 p hk
      rw [hnil] at this
      simp at this

theorem index_lookup_in_range_witness :
    (∀ ks, (goodWorld.rangeOrder ks).Perm ks) ∧
    (mainN kafkaCodes messageCount goodWorld).exit ≠ .panicked .indexOutOfRange ∧
    ∀ pmap, (produceLoop goodWorld messageCount 0 PMap.empty).out = .ok pmap →
      (∀ p, p ∈ pmap.keys ↔ ∃ i, i < messageCount ∧
        ∃ offset, goodWorld.sendMessage i (message i) = .ok (p, offset)) ∧
      (∀ p ∈ pmap.keys, pmap.get p ≠ []) :=
  ⟨fun ks => List.reverse_perm ks,
    index_lookup_in_range kafkaCodes messageCount goodWorld (fun ks => List.reverse_perm ks)⟩

/-- C7: when the broker starts, the dial succeeds and `CreateTopics` returns a
response, `setup` returns if and only if every error code of the response is the
code of `ErrNone` or of `ErrTopicAlreadyExists`; with any other code the run
ends with exit status 1 and no message is ever sent. -/
theorem setup_accepts_iff (c : ProtocolCodes) (w : World) (resp : List TopicErrorCode)
    (h1 : w.startErr = none) (h2 : w.dialErr = none) (h3 : w.createTopics = .ok resp) :
    (setup c w = .ok () ↔
      ∀ t ∈ resp, t.ErrorCode = c.ErrNone ∨ t.ErrorCode = c.ErrTopicAlreadyExists) ∧
    ((∃ t ∈ resp, t.ErrorCode ≠ c.ErrNone ∧ t.ErrorCode ≠ c.ErrTopicAlreadyExists) →
      ∀ N, (mainN c N w).exit = .osExit 1 ∧ (mainN c N w).exit.status = some 1 ∧
        sends (mainN c N w).events = 0) := by
  have hsetup : setup c w = checkTopicErrorCodes c resp := by
    unfold setup
    rw [h1, h2, h3]
  refine ⟨?_, ?_⟩
  · rw [hsetup]
    exact checkTopicErrorCodes_ok_iff c resp
  · rintro ⟨t, ht, hne1, hne2⟩ N
    have hnot : setup c w ≠ .ok () := by
      rw [hsetup]
      intro hok
      rcases (checkTopicErrorCodes_ok_iff c resp).mp hok t ht with h | h
      · exact hne1 h
      · exact hne2 h
    unfold mainN
    cases hs : setup c w with
    | ok u => exact absurd hs hnot
    | error code =>
      have := setup_error c w code hs
      subst this
      exact ⟨rfl, rfl, rfl⟩

theorem setup_accepts_iff_witness :
    (setup kafkaCodes goodWorld = .ok () ↔
      ∀ t ∈ [(⟨topic, 0⟩ : TopicErrorCode)],
        t.ErrorCode = kafkaCodes.ErrNone ∨ t.ErrorCode = kafkaCodes.ErrTopicAlreadyExists) ∧
    ((∃ t ∈ [(⟨topic, 0⟩ : TopicErrorCode)],
        t.ErrorCode ≠ kafkaCodes.ErrNone ∧ t.ErrorCode ≠ kafkaCodes.ErrTopicAlreadyExists) →
      ∀ N, (mainN kafkaCodes N goodWorld).exit = .osExit 1 ∧
        (mainN kafkaCodes N goodWorld).exit.status = some 1 ∧
        sends (mainN kafkaCodes N goodWorld).events = 0) :=
  setup_accepts_iff kafkaCodes goodWorld [⟨topic, 0⟩] rfl rfl rfl

/-- C3: when the verifier is reached, no consumer call fails and the stream of
every partition of the index delivers, in order, the payloads and offsets of the
slice recorded for it, the run returns normally and prints exactly one success
line, whose count is `N`; this holds for every order of visiting the keys. -/
theorem matching_streams_succeed (c : ProtocolCodes) (N : Nat) (w : World) (pmap : PMap)
    (hrange : ∀ ks, (w.rangeOrder ks).Perm ks)
    (hsetup : setup c w = .ok ()) (hnew : w.newSyncProducerErr = none)
    (hp : (produceLoop w N 0 PMap.empty).out = .ok pmap)
    (hclose : w.producerCloseErr = none)
    (hopen : ∀ p ∈ pmap.keys, w.newConsumerErr p = none ∧ w.consumePartitionErr p = none ∧
      w.consumerCloseErr p = none)
    (hstream : ∀ p ∈ pmap.keys, ∀ i (hi : i < (pmap.get p).length),
      ∃ m, w.messages p i = .msg m ∧ m.value = ((pmap.get p)[i]).message ∧
        m.offset = ((pmap.get p)[i]).offset) :
    (mainN c N w).exit = .returned ∧ (mainN c N w).exit.status = some 0 ∧
      printed (mainN c N w).events = [N] := by
  have hfacts := rangeOrder_facts w hrange N pmap hp
  have hV := verifyPartitions_match w pmap (w.rangeOrder pmap.keys) 0 (fun q hq => by
    obtain ⟨hk, hpos⟩ := hfacts.1 q hq
    obtain ⟨h1, h2, h3⟩ := hopen q hk
    refine ⟨h1, h2, h3, hpos, ?_⟩
    intro j hj
    obtain ⟨m, hm, hv, ho⟩ := hstream q hk j hj
    exact ⟨m, (pmap.get q)[j], hm, List.getElem?_eq_getElem hj, hv, ho⟩)
  rw [hfacts.2.2, Nat.zero_add] at hV
  have hq := pre_quiet w N pmap (w.rangeOrder pmap.keys) 0
  rcases mainN_verify_cases c N w pmap hsetup hnew hp hclose with
    ⟨t, ht, h⟩ | ⟨v, hv, _⟩ | ⟨code, hv, _⟩ | ⟨hv, _⟩
  · rw [hV] at ht
    simp only [Except.ok.injEq] at ht
    subst ht
    rw [h]
    refine ⟨rfl, rfl, ?_⟩
    simp only [printed_append, hq.1, quiet_clean.1]
    rfl
  · rw [hV] at hv; simp at hv
  · rw [hV] at hv; simp at hv
  · rw [hV] at hv; simp at hv

theorem matching_streams_succeed_witness :
    (mainN kafkaCodes messageCount goodWorld).exit = .returned ∧
    (mainN kafkaCodes messageCount goodWorld).exit.status = some 0 ∧
    printed (mainN kafkaCodes messageCount goodWorld).events = [15] :=
  matching_streams_succeed kafkaCodes messageCount goodWorld (indexOf silentWorld messageCount)
    (fun ks => List.reverse_perm ks) rfl rfl rfl rfl (fun _ _ => ⟨rfl, rfl, rfl⟩)
    (fun p _ i hi =>
      ⟨⟨((indexOf silentWorld messageCount).get p)[i].partition,
          ((indexOf silentWorld messageCount).get p)[i].offset,
          ((indexOf silentWorld messageCount).get p)[i].message⟩,
        by simp [goodWorld, echo, List.getElem?_eq_getElem hi], rfl, rfl⟩)

/-- The only exit taken inside the verify loop is the one of `Fatal`, status 1. -/
theorem verifyLoop_exit_code (w : World) (pmap : PMap) (p : Int) :
    ∀ (n k i checked total code : Nat), (pmap.get p).length - i = n →
      (verifyLoop w pmap p k i checked total).out = .error (.osExit code) → code = 1 := by
  intro n
  induction n with
  | zero =>
    intro k i checked total code hn
    have hlt : ¬ i < (pmap.get p).length := by omega
    rw [verifyLoop]
    cases hm : w.messages p k with
    | closed => simp
    | blocked => simp
    | msg m => simp [hlt]
  | succ n ih =>
    intro k i checked total code hn
    have hlt : i < (pmap.get p).length := by omega
    rw [verifyLoop]
    cases hm : w.messages p k with
    | closed => simp
    | blocked => simp
    | msg m =>
      simp only [hlt, dite_true]
      split_ifs with h1 h2 h3
      · intro h; simpa using h.symm
      · intro h; simpa using h.symm
      · cases hc : w.consumerCloseErr p <;> simp
      · intro h
        exact ih (k + 1) (i + 1) (checked + 1) total code (by omega)
          (by simpa [Res.after] using h)

theorem verifyPartitions_exit_code (w : World) (pmap : PMap) :
    ∀ (order : List Int) (total code : Nat),
      (verifyPartitions w pmap order total).out = .error (.osExit code) → code = 1
  | [], total, code, h => by simp [verifyPartitions] at h
  | q :: rest, total, code, h => by
    rcases verifyPartitions_cases w pmap q rest total with ⟨x, hx⟩ | ⟨a, ha, hx⟩ | ⟨t, _, _, _, hx⟩
    · rw [hx] at h
      simp at h
    · rw [hx] at h
      simp only [Except.error.injEq] at h
      subst h
      exact verifyLoop_exit_code w pmap q _ 0 0 0 total code rfl ha
    · rw [hx] at h
      exact verifyPartitions_exit_code w pmap rest t code (by simpa [Res.after] using h)

/-- How often the clean-up ran, by the way the run ended. -/
theorem teardown_count (c : ProtocolCodes) (N : Nat) (w : World) :
    ((mainN c N w).exit = .returned → teardowns (mainN c N w).events = 1) ∧
    (∀ v, (mainN c N w).exit = .panicked v → teardowns (mainN c N w).events = 1) ∧
    (∀ code, (mainN c N w).exit = .osExit code → teardowns (mainN c N w).events = 0) := by
  have hclean : teardowns clean = 1 := by simp [teardowns, clean]
  rcases mainN_reached_or_early c N w with ⟨pmap, hs, h1, h2, h3⟩ | ⟨he, hev⟩ | ⟨e, es, he, hev, hes⟩
  · have hq := pre_quiet w N pmap (w.rangeOrder pmap.keys) 0
    rcases mainN_verify_cases c N w pmap hs h1 h2 h3 with
      ⟨t, _, h⟩ | ⟨v, _, h⟩ | ⟨code, _, h⟩ | ⟨_, h⟩
    · rw [h]
      refine ⟨fun _ => ?_, fun v hv => by simp at hv, fun code hc => by simp at hc⟩
      simp only [teardowns_append, hq.2.1, hclean]
      simp [teardowns]
    · rw [h]
      refine ⟨fun hr => by simp at hr, fun _ _ => ?_, fun code hc => by simp at hc⟩
      simp only [teardowns_append, hq.2.1, hclean]
    · rw [h]
      exact ⟨fun hr => by simp at hr, fun v hv => by simp at hv, fun _ _ => hq.2.1⟩
    · rw [h]
      exact ⟨fun hr => by simp at hr, fun v hv => by simp at hv, fun code hc => by simp at hc⟩
  · rw [he, hev]
    exact ⟨fun hr => by simp at hr, fun v hv => by simp at hv, fun _ _ => rfl⟩
  · rw [he, hev]
    refine ⟨fun hr => by simp at hr, fun _ _ => ?_, fun code hc => by simp at hc⟩
    rw [teardowns_append, (quiet_of_produce es hes).2.1, hclean]

/-- C8: the verifier receives at most `len(pmap[p])` messages from the stream of
each partition `p`, and the whole run (its events, its end, the count it prints)
is the same for two families of streams that agree, for each partition of the
index, on the first `len(pmap[p])` receives. -/
theorem streams_read_up_to_slice_length (c : ProtocolCodes) (N : Nat) (w : World)
    (s2 : Int → Nat → Recv) (pmap : PMap)
    (hrange : ∀ ks, (w.rangeOrder ks).Perm ks)
    (hp : (produceLoop w N 0 PMap.empty).out = .ok pmap)
    (hagree : ∀ p ∈ pmap.keys, ∀ k, k < (pmap.get p).length → s2 p k = w.messages p k) :
    mainN c N { w with messages := s2 } = mainN c N w ∧
    ∀ p, reads p (mainN c N w).events ≤ (pmap.get p).length := by
  have hfacts := rangeOrder_facts w hrange N pmap hp
  refine ⟨?_, ?_⟩
  · have hV : verifyPartitions { w with messages := s2 } pmap (w.rangeOrder pmap.keys) 0 =
        verifyPartitions w pmap (w.rangeOrder pmap.keys) 0 :=
      verifyPartitions_congr w s2 pmap (w.rangeOrder pmap.keys) 0
        (fun q hq => ⟨(hfacts.1 q hq).2, hagree q (hfacts.1 q hq).1⟩)
    have hbody : body N { w with messages := s2 } = body N w := by
      unfold body
      simp only [produceLoop_messages]
      cases hP : produceLoop w N 0 PMap.empty with
      | mk es out =>
        rw [hP] at hp
        simp only at hp
        subst hp
        simp only [hV]
    have hsetup : setup c { w with messages := s2 } = setup c w := rfl
    unfold mainN
    rw [hbody, hsetup]
  · intro p
    rcases mainN_reached_or_early c N w with ⟨pm, hs, h1, h2, h3⟩ | ⟨_, hev⟩ | ⟨e, es, _, hev, hes⟩
    · have hpm : pm = pmap := by
        rw [h2] at hp
        simpa using hp
      subst hpm
      have hq := (pre_quiet w N pm (w.rangeOrder pm.keys) 0).2.2 p
      have hb := (verifyPartitions_bounds w pm p (w.rangeOrder pm.keys) 0
        (fun q hq => (hfacts.1 q hq).2)).2
      have hcount : (w.rangeOrder pm.keys).count p ≤ 1 :=
        List.nodup_iff_count_le_one.mp hfacts.2.1 p
      have hle : reads p ((produceLoop w N 0 PMap.empty).events ++ [.producerClose] ++
          (verifyPartitions w pm (w.rangeOrder pm.keys) 0).events) ≤ (pm.get p).length := by
        rw [hq]
        calc reads p (verifyPartitions w pm (w.rangeOrder pm.keys) 0).events
            ≤ (w.rangeOrder pm.keys).count p * (pm.get p).length := hb
          _ ≤ 1 * (pm.get p).length := Nat.mul_le_mul_right _ hcount
          _ = (pm.get p).length := Nat.one_mul _
      rcases mainN_verify_cases c N w pm hs h1 h2 h3 with
        ⟨t, _, h⟩ | ⟨v, _, h⟩ | ⟨code, _, h⟩ | ⟨_, h⟩
      · rw [h]
        simp only [reads_append, quiet_clean.2.2 p] at hle ⊢
        have : reads p [Event.printf t] = 0 := by simp [reads]
        omega
      · rw [h]
        simp only [reads_append, quiet_clean.2.2 p] at hle ⊢
        omega
      · rw [h]
        exact hle
      · rw [h]
        exact hle
    · rw [hev]
      simp [reads]
    · rw [hev, reads_append, (quiet_of_produce es hes).2.2 p, quiet_clean.2.2 p]
      omega

theorem streams_read_up_to_slice_length_witness :
    mainN kafkaCodes messageCount
      { goodWorld with
        messages := closedBeyond (indexOf silentWorld messageCount) goodWorld.messages } =
      mainN kafkaCodes messageCount goodWorld ∧
    ∀ p, reads p (mainN kafkaCodes messageCount goodWorld).events ≤
      ((indexOf silentWorld messageCount).get p).length :=
  streams_read_up_to_slice_length kafkaCodes messageCount goodWorld
    (closedBeyond (indexOf silentWorld messageCount) goodWorld.messages)
    (indexOf silentWorld messageCount) (fun ks => List.reverse_perm ks) rfl
    (fun p _ k hk => by simp [closedBeyond, hk])

/-- What a normal return does guarantee: when no stream of a partition of the
index was closed before delivering `len(pmap[p])` messages, exactly
`len(pmap[p])` messages were received from every partition `p` of the index and
the one count printed is `N`. -/
theorem success_means_full_verification (c : ProtocolCodes) (N : Nat) (w : World)
    (pmap : PMap) (hrange : ∀ ks, (w.rangeOrder ks).Perm ks)
    (hp : (produceLoop w N 0 PMap.empty).out = .ok pmap)
    (hret : (mainN c N w).exit = .returned)
    (hnotclosed : ∀ p ∈ pmap.keys, ∀ k, k < (pmap.get p).length → w.messages p k ≠ .closed) :
    printed (mainN c N w).events = [N] ∧
    ∀ p ∈ pmap.keys, reads p (mainN c N w).events = (pmap.get p).length := by
  have hfacts := rangeOrder_facts w hrange N pmap hp
  rcases mainN_reached_or_early c N w with ⟨pm, hs, h1, h2, h3⟩ | ⟨he, _⟩ | ⟨e, es, he, _⟩
  · have hpm : pm = pmap := by
      rw [h2] at hp
      simpa using hp
    subst hpm
    have hq := pre_quiet w N pm (w.rangeOrder pm.keys) 0
    rcases mainN_verify_cases c N w pm hs h1 h2 h3 with
      ⟨t, ht, h⟩ | ⟨v, _, h⟩ | ⟨code, _, h⟩ | ⟨_, h⟩
    · obtain ⟨htot, hreads⟩ := verifyPartitions_full w pm (w.rangeOrder pm.keys) 0 t
        (fun q hq => ⟨(hfacts.1 q hq).2, hnotclosed q (hfacts.1 q hq).1⟩) ht
      rw [hfacts.2.2, Nat.zero_add] at htot
      subst htot
      rw [h]
      refine ⟨?_, ?_⟩
      · simp only [printed_append, hq.1, quiet_clean.1]
        rfl
      · intro p hk
        have hcount : (w.rangeOrder pm.keys).count p = 1 :=
          List.count_eq_one_of_mem hfacts.2.1 ((hrange pm.keys).mem_iff.mpr hk)
        have h0 : ∀ n, reads p [Event.printf n] = 0 := fun n => by simp [reads]
        simp only [reads_append, quiet_clean.2.2 p, hq.2.2 p, hreads p, hcount, h0]
        omega
    · rw [h] at hret; simp at hret
    · rw [h] at hret; simp at hret
    · rw [h] at hret; simp at hret
  · rw [he] at hret; simp at hret
  · rw [he] at hret; simp at hret

theorem corrupted_ne_message (i : Nat) : ("corrupted" = message i) = False := by
  apply eq_false
  intro h
  have hd := congrArg (fun s => s.data.head?) h
  simp [message, String.data_append] at hd

theorem success_means_full_verification_witness :
    printed (mainN kafkaCodes messageCount goodWorld).events = [15] ∧
    ∀ p ∈ (indexOf silentWorld messageCount).keys,
      reads p (mainN kafkaCodes messageCount goodWorld).events =
        ((indexOf silentWorld messageCount).get p).length :=
  success_means_full_verification kafkaCodes messageCount goodWorld
    (indexOf silentWorld messageCount) (fun ks => List.reverse_perm ks) rfl
    (by simp [messageCount, mainN, setup, goodWorld, silentWorld, echo, indexOf,
      checkTopicErrorCodes, kafkaCodes, body, produceLoop, verifyPartitions, verifyLoop,
      Res.after, PMap.set, PMap.get, PMap.empty])
    (fun p _ k hk => by simp [goodWorld, echo, List.getElem?_eq_getElem hk])

/-- C5: the code at a stream that ends early.  All fifteen messages are assigned
to partition 3 and the stream of partition 3 is closed before it delivers
anything; the run still returns normally with exit status 0, having received and
checked nothing, never closes the consumer, and prints the count 0 instead of 15. -/
theorem closed_stream_still_succeeds :
    (produceLoop closedWorld messageCount 0 PMap.empty).out =
      .ok (indexOf closedWorld messageCount) ∧
    (indexOf closedWorld messageCount).keys = [3] ∧
    ((indexOf closedWorld messageCount).get 3).length = 15 ∧
    (main kafkaCodes closedWorld).exit = .returned ∧
    (main kafkaCodes closedWorld).exit.status = some 0 ∧
    printed (main kafkaCodes closedWorld).events = [0] ∧
    reads 3 (main kafkaCodes closedWorld).events = 0 ∧
    Event.consumerClose 3 ∉ (main kafkaCodes closedWorld).events := by
  refine ⟨rfl, by decide, by decide, ?_, ?_, ?_, ?_, ?_⟩ <;>
    simp [main, messageCount, mainN, setup, closedWorld, silentWorld, indexOf,
      checkTopicErrorCodes, kafkaCodes, body, produceLoop, verifyPartitions, verifyLoop,
      Res.after, PMap.set, PMap.get, PMap.empty, printed, reads, clean, Exit.status]

/-- The same path with a stream that ends after it delivered something: the
stream of partition 0 is closed after the first of its two messages; that message
is received and checked, yet the run returns normally and the count it prints
leaves out both messages of partition 0. -/
theorem short_stream_drops_checked :
    ((indexOf silentWorld messageCount).get 0).length = 2 ∧
    (main kafkaCodes shortWorld).exit = .returned ∧
    printed (main kafkaCodes shortWorld).events = [13] ∧
    reads 0 (main kafkaCodes shortWorld).events = 1 := by
  refine ⟨by decide, ?_, ?_, ?_⟩ <;>
    simp [main, messageCount, mainN, setup, shortWorld, goodWorld, silentWorld, echo, indexOf,
      checkTopicErrorCodes, kafkaCodes, body, produceLoop, verifyPartitions, verifyLoop,
      Res.after, PMap.set, PMap.get, PMap.empty, printed, reads, clean]

/-- C6: the produce phase succeeds and the first message received has an altered
payload; the run ends through `Fatal` with exit status 1 and the clean-up closure
deferred in `main` never runs. -/
theorem fatal_mismatch_skips_teardown :
    setup kafkaCodes corruptWorld = .ok () ∧
    (main kafkaCodes corruptWorld).exit = .osExit 1 ∧
    teardowns (main kafkaCodes corruptWorld).events = 0 ∧
    Event.removeAll ∉ (main kafkaCodes corruptWorld).events := by
  refine ⟨rfl, ?_, ?_, ?_⟩ <;>
    simp [main, messageCount, mainN, setup, corruptWorld, silentWorld,
      checkTopicErrorCodes, kafkaCodes, body, produceLoop, verifyPartitions, verifyLoop,
      Res.after, PMap.set, PMap.get, PMap.empty, teardowns, clean, corrupted_ne_message]

/-- C4 (as amended): when the stream of a partition `p` of the index delivers at least
`i + 1` messages and the `i`-th differs from `pmap[p][i]` in payload or offset,
the run never returns normally and never prints the success line, and it receives
at most `i + 1` messages from `p`.  It ends with exit status 1, or with a panic
carrying an error, or it blocks for ever; and it does end in one of the two
failures as soon as no other partition `q` of the index has a blocking receive
among its first `len(pmap[q])`. -/
theorem mismatch_never_succeeds (c : ProtocolCodes) (N : Nat) (w : World) (pmap : PMap)
    (hrange : ∀ ks, (w.rangeOrder ks).Perm ks)
    (hp : (produceLoop w N 0 PMap.empty).out = .ok pmap)
    (p : Int) (i : Nat) (chk : check) (m : ConsumerMessage)
    (hc : (pmap.get p)[i]? = some chk)
    (hdel : ∀ j, j ≤ i → ∃ m2, w.messages p j = .msg m2)
    (hm : w.messages p i = .msg m)
    (hne : m.value ≠ chk.message ∨ m.offset ≠ chk.offset) :
    (mainN c N w).exit ≠ .returned ∧ printed (mainN c N w).events = [] ∧
    reads p (mainN c N w).events ≤ i + 1 ∧
    ((mainN c N w).exit = .osExit 1 ∨ (∃ e, (mainN c N w).exit = .panicked (.err e)) ∨
      (mainN c N w).exit = .blockedForever) ∧
    ((∀ q ∈ pmap.keys, q ≠ p → ∀ k, k < (pmap.get q).length → w.messages q k ≠ .blocked) →
      (mainN c N w).exit = .osExit 1 ∨ ∃ e, (mainN c N w).exit = .panicked (.err e)) := by
  have hfacts := rangeOrder_facts w hrange N pmap hp
  have hk : p ∈ pmap.keys := by
    by_contra hcon
    rw [get_eq_nil_of_not_mem pmap p hcon] at hc
    simp at hc
  rcases mainN_reached_or_early c N w with ⟨pm, hs, h1, h2, h3⟩ | ⟨he, hev⟩ | ⟨e, es, he, hev, hes⟩
  · have hpm : pm = pmap := by
      rw [h2] at hp
      simpa using hp
    subst hpm
    have hq := pre_quiet w N pm (w.rangeOrder pm.keys) 0
    obtain ⟨a, ha, hoob, hblk, hreads⟩ := verifyPartitions_mismatch w pm p chk m i hne hdel hc hm
      (w.rangeOrder pm.keys) 0 ((hrange pm.keys).mem_iff.mpr hk) (fun q hq => (hfacts.1 q hq).2)
    rcases mainN_verify_cases c N w pm hs h1 h2 h3 with
      ⟨t, ht, h⟩ | ⟨v, hv, h⟩ | ⟨code, hv, h⟩ | ⟨hv, h⟩
    · rw [ha] at ht
      simp at ht
    · have hv2 : ∃ e, v = .err e := by
        cases v with
        | err e => exact ⟨e, rfl⟩
        | indexOutOfRange =>
          rw [ha] at hv
          simp only [Except.error.injEq] at hv
          exact absurd hv hoob
      obtain ⟨e, rfl⟩ := hv2
      rw [h]
      refine ⟨by simp, ?_, ?_, Or.inr (Or.inl ⟨e, rfl⟩), fun _ => Or.inr ⟨e, rfl⟩⟩
      · rw [printed_append, hq.1, quiet_clean.1]
        rfl
      · rw [reads_append, hq.2.2 p, quiet_clean.2.2 p]
        omega
    · have hcode := verifyPartitions_exit_code w pm (w.rangeOrder pm.keys) 0 code hv
      subst hcode
      rw [h]
      refine ⟨by simp, hq.1, ?_, Or.inl rfl, fun _ => Or.inl rfl⟩
      rw [hq.2.2 p]
      exact hreads
    · rw [h]
      refine ⟨by simp, hq.1, ?_, Or.inr (Or.inr rfl), ?_⟩
      · rw [hq.2.2 p]
        exact hreads
      · intro hnb
        rw [ha] at hv
        simp only [Except.error.injEq] at hv
        exact absurd hv (hblk (fun q hq hqp k hk => hnb q (hfacts.1 q hq).1 hqp k hk))
  · rw [he, hev]
    exact ⟨by simp, rfl, by simp [reads], Or.inl rfl, fun _ => Or.inl rfl⟩
  · rw [he, hev]
    refine ⟨by simp, ?_, ?_, Or.inr (Or.inl ⟨e, rfl⟩), fun _ => Or.inr ⟨e, rfl⟩⟩
    · rw [printed_append, (quiet_of_produce es hes).1, quiet_clean.1]
      rfl
    · rw [reads_append, (quiet_of_produce es hes).2.2 p, quiet_clean.2.2 p]
      omega

theorem mismatch_never_succeeds_witness :
    (mainN kafkaCodes messageCount oneCorruptWorld).exit ≠ .returned ∧
    printed (mainN kafkaCodes messageCount oneCorruptWorld).events = [] ∧
    reads 1 (mainN kafkaCodes messageCount oneCorruptWorld).events ≤ 0 + 1 ∧
    ((mainN kafkaCodes messageCount oneCorruptWorld).exit = .osExit 1 ∨
      ∃ e, (mainN kafkaCodes messageCount oneCorruptWorld).exit = .panicked (.err e)) := by
  have h := mismatch_never_succeeds kafkaCodes messageCount oneCorruptWorld
    (indexOf silentWorld messageCount) (fun ks => List.reverse_perm ks) rfl
    1 0 ⟨1, 0, message 1⟩ ⟨1, 0, "corrupted"⟩ rfl
    (fun j hj => ⟨⟨1, 0, "corrupted"⟩, by
      have hj0 : j = 0 := by omega
      subst hj0
      rfl⟩)
    rfl (Or.inl (by decide))
  exact ⟨h.1, h.2.1, h.2.2.1, h.2.2.2.2 (fun q _ hq k hk => by
    simp [oneCorruptWorld, hq, goodWorld, echo, List.getElem?_eq_getElem hk])⟩

/-- C4 (counterexample): partitions 0 and 1 both hold messages; the stream of partition 1
delivers a first message whose payload differs from the one recorded, but the
verifier visits partition 0 first and its stream never delivers: the run blocks
for ever and does not end in a failure. -/
theorem mismatch_behind_stalled_stream :
    (produceLoop stalledWorld messageCount 0 PMap.empty).out =
      .ok (indexOf stalledWorld messageCount) ∧
    ((indexOf stalledWorld messageCount).get 1)[0]? = some ⟨1, 0, message 1⟩ ∧
    stalledWorld.messages 1 0 = .msg ⟨1, 0, "corrupted"⟩ ∧
    "corrupted" ≠ message 1 ∧
    (main kafkaCodes stalledWorld).exit = .blockedForever ∧
    (main kafkaCodes stalledWorld).exit.status = none := by
  refine ⟨rfl, rfl, rfl, by decide, ?_, ?_⟩ <;>
    simp [main, messageCount, mainN, setup, stalledWorld, silentWorld,
      checkTopicErrorCodes, kafkaCodes, body, produceLoop, verifyPartitions, verifyLoop,
      Res.after, PMap.set, PMap.get, PMap.empty, Exit.status]

end Sarama

